import Mathlib

/-!
Shallow embedding of the tiltak MCTS search core (src/src/mcts.rs) and of the
evaluation pipeline (src/src/evaluation/policy_eval.rs, value_eval.rs),
together with theorems settling the claims about them.

Floating point arithmetic of the source (f32/f64/f16) is modelled by exact
rationals for the search tree bookkeeping, and by real numbers where the
source applies transcendental functions (exp, ln, sqrt).  The square root of
the parent visit count is threaded through the Game record as an abstract
function; theorems that depend on it carry the hypothesis that the supplied
value squares to the visit count.
-/

namespace Tiltak

/-- Side to move, board_game_traits::Color. -/
inductive Color where
  | White
  | Black
deriving DecidableEq, Repr

/-- Game result from white's perspective, board_game_traits::GameResult. -/
inductive GameResult where
  | WhiteWin
  | BlackWin
  | Draw
deriving DecidableEq, Repr

/-- A game result from one side's perspective (mcts.rs, GameResultForUs). -/
inductive GameResultForUs where
  | Win
  | Loss
  | Draw
deriving DecidableEq, Repr

/-- The ops::Not implementation for GameResultForUs (mcts.rs lines 350-360). -/
def GameResultForUs.not : GameResultForUs → GameResultForUs
  | GameResultForUs.Win => GameResultForUs.Loss
  | GameResultForUs.Loss => GameResultForUs.Win
  | GameResultForUs.Draw => GameResultForUs.Draw

/-- Fixed score of a proven result (mcts.rs lines 362-370). -/
def GameResultForUs.score : GameResultForUs → ℚ
  | GameResultForUs.Win => 1
  | GameResultForUs.Loss => 0
  | GameResultForUs.Draw => 1/2

/-- Return value of one select iteration (mcts.rs, SearchResult). -/
inductive SearchResult where
  | Value : ℚ → SearchResult
  | Decisive : ℕ → ℚ → GameResultForUs → SearchResult
deriving DecidableEq, Repr

/-- The ops::Not implementation for SearchResult (mcts.rs lines 378-389). -/
def SearchResult.not : SearchResult → SearchResult
  | SearchResult.Value s => SearchResult.Value (1 - s)
  | SearchResult.Decisive nodes av r => SearchResult.Decisive nodes ((nodes : ℚ) - av) r.not

/-- The search tree node (mcts.rs, struct Tree).  Moves are identified by
natural numbers; children pair a subtree with the move leading to it. -/
inductive Tree where
  | mk : List (Tree × ℕ) → ℕ → ℚ → ℚ → ℚ → Option GameResultForUs → Tree

def Tree.children : Tree → List (Tree × ℕ)
  | Tree.mk cs _ _ _ _ _ => cs

def Tree.visits : Tree → ℕ
  | Tree.mk _ v _ _ _ _ => v

def Tree.total_action_value : Tree → ℚ
  | Tree.mk _ _ tav _ _ _ => tav

def Tree.mean_action_value : Tree → ℚ
  | Tree.mk _ _ _ mav _ _ => mav

def Tree.heuristic_score : Tree → ℚ
  | Tree.mk _ _ _ _ hs _ => hs

def Tree.known_result : Tree → Option GameResultForUs
  | Tree.mk _ _ _ _ _ kr => kr

/-- Tree::new_root (mcts.rs lines 73-82). -/
def new_root : Tree := Tree.mk [] 0 0 (1/2) 0 none

/-- Tree::new_node (mcts.rs lines 149-158). -/
def new_node (heuristic_score : ℚ) : Tree :=
  Tree.mk [] 0 0 (1/10) heuristic_score none

/-- The PUCT exploration constant (mcts.rs line 10). -/
def C_PUCT : ℚ := 1

/-- Tree::exploration_value (mcts.rs lines 335-339); the caller passes the
square root of the parent's visit count. -/
def exploration_value (t : Tree) (parent_visits_sqrt : ℚ) : ℚ :=
  (1 - t.mean_action_value)
    + C_PUCT * t.heuristic_score * parent_visits_sqrt / (1 + (t.visits : ℚ))

/-- Abstract game interface used by select.  Boards and moves are natural
numbers; the fields model the Board methods called by mcts.rs.  static_eval
models cp_to_win_percentage composed with static_eval_with_params (white's
perspective); legal_moves models generate_moves_with_params, returning each
legal move with its policy prior; sqrt_fn models the f32 square root applied
to the visit count. -/
structure Game where
  do_move : ℕ → ℕ → ℕ
  game_result : ℕ → Option GameResult
  side_to_move : ℕ → Color
  static_eval : ℕ → ℚ
  legal_moves : ℕ → List (ℕ × ℚ)
  sqrt_fn : ℕ → ℚ

/-- The match converting a GameResult to the side to move's perspective
(mcts.rs lines 288-294). -/
def result_for_us (gr : GameResult) (side : Color) : GameResultForUs :=
  match gr, side with
  | GameResult.Draw, _ => GameResultForUs.Draw
  | GameResult.WhiteWin, Color.Black => GameResultForUs.Loss
  | GameResult.BlackWin, Color.White => GameResultForUs.Loss
  | GameResult.WhiteWin, Color.White => GameResultForUs.Win
  | GameResult.BlackWin, Color.Black => GameResultForUs.Win

/-- Tree::expand (mcts.rs lines 284-315). -/
def expand (g : Game) (t : Tree) (b : ℕ) : Tree × SearchResult :=
  match g.game_result b with
  | some gr =>
    let game_result_for_us := result_for_us gr (g.side_to_move b)
    let score := game_result_for_us.score
    (Tree.mk t.children 1 score score t.heuristic_score (some game_result_for_us),
      SearchResult.Value score)
  | none =>
    let static_eval :=
      if g.side_to_move b = Color.Black then 1 - g.static_eval b else g.static_eval b
    (Tree.mk t.children 1 static_eval static_eval t.heuristic_score t.known_result,
      SearchResult.Value static_eval)

/-- Tree::init_children (mcts.rs lines 320-333): push one fresh node per
legal move, with the policy prior as heuristic score. -/
def init_children (g : Game) (t : Tree) (b : ℕ) : Tree :=
  Tree.mk (t.children ++ (g.legal_moves b).map (fun p => (new_node p.2, p.1)))
    t.visits t.total_action_value t.mean_action_value t.heuristic_score t.known_result

/-- The child selection loop (mcts.rs lines 204-224): scan the children in
order keeping the best exploration value seen so far (initially 0), break at
the first child whose known_result is Loss, skip children whose known_result
is Win, and update on greater-or-equal comparison so that ties go to the
later child. -/
def choose_child_loop : List (Tree × ℕ) → ℚ → ℕ → ℕ → ℚ → ℕ
  | [], _, _, best, _ => best
  | (child, _) :: rest, s, i, best, best_val =>
    if child.known_result = some GameResultForUs.Win
        ∨ child.known_result = some GameResultForUs.Loss then
      if child.known_result = some GameResultForUs.Loss then i
      else choose_child_loop rest s (i+1) best best_val
    else
      let v := exploration_value child s
      if best_val ≤ v then choose_child_loop rest s (i+1) i v
      else choose_child_loop rest s (i+1) best best_val

def choose_child (children : List (Tree × ℕ)) (s : ℚ) : ℕ :=
  choose_child_loop children s 0 0 0

/-- The back-propagation step of select (mcts.rs lines 250-277): if the
chosen child has become a proven loss for it, this node is a proven win and
is re-scored from scratch; otherwise the negated child result is applied to
the accumulated statistics. -/
def backup (t1 : Tree) (i : ℕ) (mv : ℕ) (child_out : Tree × SearchResult) :
    Tree × SearchResult :=
  let child' := child_out.1
  let result := child_out.2.not
  if child'.known_result = some GameResultForUs.Loss then
    (Tree.mk (t1.children.set i (child', mv)) 1 1 1 t1.heuristic_score
        (some GameResultForUs.Win),
      SearchResult.Decisive t1.visits t1.total_action_value GameResultForUs.Win)
  else
    match result with
    | SearchResult.Decisive nodes av r =>
      let visits2 := t1.visits + 1 - nodes
      let total2 := t1.total_action_value - av
          + (if r = GameResultForUs.Win then 1 else 0)
      (Tree.mk (t1.children.set i (child', mv)) visits2 total2
          (total2 / (visits2 : ℚ)) t1.heuristic_score t1.known_result,
        result)
    | SearchResult.Value v =>
      let total2 := t1.total_action_value + v
      (Tree.mk (t1.children.set i (child', mv)) (t1.visits + 1) total2
          (total2 / ((t1.visits + 1 : ℕ) : ℚ)) t1.heuristic_score t1.known_result,
        result)

/-- Tree height, used as the termination measure for select. -/
def heightT : Tree → ℕ
  | Tree.mk cs _ _ _ _ _ => 1 + heightList cs
where heightList : List (Tree × ℕ) → ℕ
  | [] => 0
  | (c, _) :: rest => max (heightT c) (heightList rest)

/-- One iteration of Monte Carlo tree search (Tree::select, mcts.rs lines
163-280).  The empty-children case, where the source panics with "No legal
moves on board", is modelled by an arbitrary junk return value. -/
def select (g : Game) (t : Tree) (b : ℕ) : Tree × SearchResult :=
  if t.known_result.isSome then
    (Tree.mk t.children (t.visits + 1)
        (t.total_action_value + t.mean_action_value) t.mean_action_value
        t.heuristic_score t.known_result,
      SearchResult.Value t.mean_action_value)
  else if t.visits = 0 then
    expand g t b
  else
    let t1 := if t.visits = 1 then init_children g t b else t
    let i := choose_child t1.children (g.sqrt_fn t1.visits)
    match hm : t1.children.get? i with
    | none => (t1, SearchResult.Value 0)
    | some (child, mv) =>
      if child.known_result = some GameResultForUs.Win then
        (Tree.mk t1.children 1 0 0 t1.heuristic_score (some GameResultForUs.Loss),
          SearchResult.Decisive t1.visits
            ((t1.visits : ℚ) - t1.total_action_value) GameResultForUs.Loss)
      else
        backup t1 i mv (select g child (g.do_move b mv))
termination_by (heightT t, t.visits)
decreasing_by
  have hmem := List.get?_mem hm
  have hkey : ∀ (t2 c2 : Tree) (m2 : ℕ), (c2, m2) ∈ t2.children → heightT c2 < heightT t2 := by
    intro t2 c2 m2 h2
    cases t2 with
    | mk cs v2 tav2 mav2 hs2 kr2 =>
      simp only [Tree.children] at h2
      have hle : ∀ (cs2 : List (Tree × ℕ)), (c2, m2) ∈ cs2
          → heightT c2 ≤ heightT.heightList cs2 := by
        intro cs2 h3
        induction cs2 with
        | nil => cases h3
        | cons hd tl ih =>
          obtain ⟨chd, mhd⟩ := hd
          rcases List.mem_cons.mp h3 with heq | h4
          · have hfst : c2 = chd := congrArg Prod.fst heq
            simp only [heightT.heightList, hfst]
            exact le_max_left _ _
          · simp only [heightT.heightList]
            exact le_max_of_le_right (ih h4)
      have := hle cs h2
      simp only [heightT]
      omega
  unfold_let t1 at hmem
  by_cases h1 : t.visits = 1
  · rw [dif_pos h1] at hmem
    have hic : (init_children g t b).children
        = t.children ++ (g.legal_moves b).map (fun p => (new_node p.2, p.1)) := by
      cases t with
      | mk cs v2 tav2 mav2 hs2 kr2 => rfl
    rw [hic] at hmem
    rcases List.mem_append.mp hmem with hc | hc
    · exact Prod.Lex.left _ _ (hkey t child mv hc)
    · rcases List.mem_map.mp hc with ⟨p, _, hp⟩
      have hchild : child = new_node p.2 := by
        have := congrArg Prod.fst hp
        simpa using this.symm
      rcases Nat.lt_or_ge (heightT child) (heightT t) with h | h
      · exact Prod.Lex.left _ _ h
      · have hc1 : heightT child = 1 := by
          rw [hchild]
          rfl
        have ht1 : heightT t = 1 := by
          have h2 : 1 ≤ heightT t := by
            cases t with
            | mk cs v2 tav2 mav2 hs2 kr2 => simp [heightT]
          omega
        have hEq : heightT child = heightT t := by omega
        rw [hEq]
        apply Prod.Lex.right
        have hv0 : child.visits = 0 := by rw [hchild]; rfl
        rw [hv0, h1]
        omega
  · rw [dif_neg h1] at hmem
    exact Prod.Lex.left _ _ (hkey t child mv hmem)

/-- The node state that select descends from: children are initialized on the
second visit, otherwise the node is unchanged. -/
def descend_state (g : Game) (t : Tree) (b : ℕ) : Tree :=
  if t.visits = 1 then init_children g t b else t

/-- The index of the child that the selection loop picks. -/
def chosen_index (g : Game) (t : Tree) (b : ℕ) : ℕ :=
  choose_child (descend_state g t b).children (g.sqrt_fn (descend_state g t b).visits)

/-- Navigate the tree by a list of child indices. -/
def get_node : Tree → List ℕ → Option Tree
  | t, [] => some t
  | t, i :: rest =>
    match t.children.get? i with
    | some (c, _) => get_node c rest
    | none => none

/-- cp_to_win_percentage (mcts.rs lines 422-425): convert a centipawn static
evaluation to a winning probability. -/
noncomputable def cp_to_win_percentage (cp : ℝ) : ℝ :=
  1 / (1 + Real.exp (-cp))

/-- Candidate move shape, as far as the policy feature pass inspects it:
whether the move is a spread (ExpMove::Move) and its origin square. -/
structure MoveS where
  isSpread : Bool
  origin : ℕ
deriving DecidableEq, Repr

/-- The slots of the per-move policy feature vector that the claims inspect,
from parameters::PolicyFeatures; all remaining features are collected in
order in the rest field. -/
structure PolicyFeatures where
  place_to_win : List ℚ
  place_our_critical_square : List ℚ
  move_onto_critical_square : List ℚ
  spread_that_connects_groups_to_win : List ℚ
  decline_win : List ℚ
  fcd_highest_board : List ℚ
  fcd_highest_stack : List ℚ
  fcd_other : List ℚ
  rest : List ℚ
deriving DecidableEq, Repr

/-- A freshly zeroed feature set, with the array sizes the source uses for
the modelled slots. -/
def zero_features : PolicyFeatures where
  place_to_win := [0]
  place_our_critical_square := [0]
  move_onto_critical_square := [0, 0, 0]
  spread_that_connects_groups_to_win := [0]
  decline_win := [0]
  fcd_highest_board := [0, 0, 0, 0, 0, 0]
  fcd_highest_stack := [0, 0, 0, 0, 0, 0]
  fcd_other := [0, 0, 0, 0, 0, 0, 0, 0]
  rest := []

/-- has_immediate_win (policy_eval.rs lines 198-208). -/
def has_immediate_win (f : PolicyFeatures) : Prop :=
  f.place_to_win.getD 0 0 ≠ 0 ∨ f.place_our_critical_square.getD 0 0 ≠ 0
    ∨ f.move_onto_critical_square.getD 0 0 ≠ 0
    ∨ f.move_onto_critical_square.getD 1 0 ≠ 0
    ∨ f.spread_that_connects_groups_to_win.getD 0 0 ≠ 0

instance has_immediate_win_decidable : DecidablePred has_immediate_win := by
  intro f
  unfold has_immediate_win
  infer_instance

/-- features_for_move (policy_eval.rs lines 261-271): during the swap
opening, before two half-moves have been played, return immediately with the
features untouched (all zero); the remaining position-dependent extraction
of features_for_move_colortr is abstracted by the extract parameter. -/
def features_for_move (ply : ℕ) (extract : MoveS → PolicyFeatures)
    (mv : MoveS) : PolicyFeatures :=
  if ply < 2 then zero_features else extract mv

def clamp_int (x lo hi : ℤ) : ℤ := min (max x lo) hi

/-- The FCD bonus applied to spread moves (policy_eval.rs lines 148-157). -/
def fcd_bonus (highest_board highest_at_origin fcd : ℤ) (mv : MoveS)
    (f : PolicyFeatures) : PolicyFeatures :=
  if mv.isSpread then
    if highest_board ≤ fcd then
      { f with fcd_highest_board := f.fcd_highest_board.set (clamp_int fcd 1 6 - 1).toNat 1 }
    else if highest_at_origin ≤ fcd then
      { f with fcd_highest_stack :=
          f.fcd_highest_stack.set (clamp_int fcd (-1) 4 + 1).toNat 1 }
    else
      { f with fcd_other := f.fcd_other.set (clamp_int fcd (-3) 4 + 3).toNat 1 }
  else f

/-- The decline_win pass (policy_eval.rs lines 159-169): when at least one
move has an immediate win, flag every move that has none. -/
def decline_pass (feature_sets : List PolicyFeatures) : List PolicyFeatures :=
  if feature_sets.any (fun f => decide (has_immediate_win f)) then
    feature_sets.map (fun f =>
      if has_immediate_win f then f
      else { f with decline_win := f.decline_win.set 0 1 })
  else feature_sets

/-- features_for_moves (policy_eval.rs lines 118-170): per-move feature
extraction, the FCD bonus relative to the highest flat-count delta on the
board and at the move's origin square, and the decline_win pass.  The
fcd_for_move parameter abstracts Position::fcd_for_move. -/
def features_for_moves (ply : ℕ) (extract : MoveS → PolicyFeatures)
    (fcd_for_move : MoveS → ℤ) (moves : List MoveS) : List PolicyFeatures :=
  decline_pass (moves.map (fun mv =>
    fcd_bonus ((moves.map fcd_for_move).foldl max (-1))
      (((moves.filter (fun m2 => decide (m2.origin = mv.origin))).map fcd_for_move).foldl
        max (-1))
      (fcd_for_move mv) mv (features_for_move ply extract mv)))

/-- The full per-move feature vector, as dot-producted with the parameters. -/
def to_vector (f : PolicyFeatures) : List ℚ :=
  f.place_to_win ++ f.place_our_critical_square ++ f.move_onto_critical_square
    ++ f.spread_that_connects_groups_to_win ++ f.decline_win
    ++ f.fcd_highest_board ++ f.fcd_highest_stack ++ f.fcd_other ++ f.rest

/-- sigmoid (policy_eval.rs lines 22-24). -/
noncomputable def sigmoid (x : ℝ) : ℝ := 1 / (1 + Real.exp (-x))

/-- inverse_sigmoid (policy_eval.rs lines 26-29). -/
noncomputable def inverse_sigmoid (x : ℝ) : ℝ := Real.log (x / (1 - x))

/-- POLICY_BASELINE (policy_eval.rs line 20). -/
noncomputable def POLICY_BASELINE : ℝ := 0.05

noncomputable def dot_product (xs ys : List ℝ) : ℝ :=
  (List.zipWith (fun a c => a * c) xs ys).sum

/-- The feature values, stored as rationals, viewed as reals. -/
def cast_list (l : List ℚ) : List ℝ := l.map (fun q => (q : ℝ))

/-- The pre-normalization move scores (policy_eval.rs lines 73-105): dot the
feature vector with the parameters, add the offset
inverse_sigmoid(1/max(num_moves, 2)), and apply the sigmoid. -/
noncomputable def policy_scores (ply : ℕ) (extract : MoveS → PolicyFeatures)
    (fcd_for_move : MoveS → ℤ) (params : List ℝ) (moves : List MoveS) : List ℝ :=
  (features_for_moves ply extract fcd_for_move moves).map (fun f =>
    sigmoid (dot_product (cast_list (to_vector f)) params
      + inverse_sigmoid (1 / ((max moves.length 2 : ℕ) : ℝ))))

/-- generate_moves_with_probabilities_colortr's final normalization
(policy_eval.rs lines 107-116): scale the scores so they sum to
1 - POLICY_BASELINE, then add POLICY_BASELINE/num_moves to each. -/
noncomputable def generate_moves_with_probabilities (ply : ℕ)
    (extract : MoveS → PolicyFeatures) (fcd_for_move : MoveS → ℤ)
    (params : List ℝ) (moves : List MoveS) : List ℝ :=
  (policy_scores ply extract fcd_for_move params moves).map (fun score =>
    score * ((1 - POLICY_BASELINE)
        / (policy_scores ply extract fcd_for_move params moves).sum)
      + POLICY_BASELINE / (moves.length : ℝ))

/-- Modelled from the spec: move generation is not under src; per the swap
opening rule (spec section 3, invariant 3), at ply 0 and 1 every legal move
is a placement, never a spread. -/
def opening_slate (moves : List MoveS) : Prop :=
  ∀ mv ∈ moves, mv.isSpread = false

instance opening_slate_decidable : DecidablePred opening_slate := by
  intro moves
  unfold opening_slate
  infer_instance

def clamp (x lo hi : ℚ) : ℚ := min (max x lo) hi

/-- The opening phase factor (value_eval.rs lines 170-173). -/
def opening_scale_factor (ply : ℕ) : ℚ :=
  min (max ((24 - (ply : ℚ)) / 12) 0) 1

/-- The endgame phase factor (value_eval.rs lines 174-177). -/
def endgame_scale_factor (ply : ℕ) : ℚ :=
  min (max (((ply : ℚ) - 24) / 24) 0) 1

/-- The middlegame phase factor (value_eval.rs line 178). -/
def middlegame_scale_factor (ply : ℕ) : ℚ :=
  1 - opening_scale_factor ply - endgame_scale_factor ply

/-- A demonstration game with a single line of play: every board position
advances to the next, nothing is terminal, and every query gets a fixed
answer.  Used to drive select on hand-built tree states. -/
def gD : Game where
  do_move := fun b _ => b + 1
  game_result := fun _ => none
  side_to_move := fun _ => Color.White
  static_eval := fun _ => 1/2
  legal_moves := fun _ => []
  sqrt_fn := fun _ => 0

/-- A proven-win leaf: one visit, fixed score 1. -/
def tT : Tree := Tree.mk [] 1 1 1 0 (some GameResultForUs.Win)

/-- A node whose single child is a proven win for that child. -/
def tZ : Tree := Tree.mk [(tT, 3)] 2 (1/2) (1/4) 0 none

def tY : Tree := Tree.mk [(tZ, 2)] 3 2 (2/3) 0 none

def tX : Tree := Tree.mk [(tY, 1)] 4 (3/2) (3/8) 0 none

def tP : Tree := Tree.mk [(tX, 0)] 5 3 (3/5) 0 none

/-- A two-position demonstration game: board 0 has one move into board 1,
which is a win for White with Black to move. -/
def g5 : Game where
  do_move := fun _ _ => 1
  game_result := fun b => if b = 1 then some GameResult.WhiteWin else none
  side_to_move := fun b => if b = 1 then Color.Black else Color.White
  static_eval := fun _ => 1/2
  legal_moves := fun b => if b = 0 then [(0, 1/2)] else []
  sqrt_fn := fun n => (n : ℚ)

/-- The g5 root after its first select (the expansion). -/
def t5a : Tree := Tree.mk [] 1 (1/2) (1/2) 0 none

theorem one_le_heightT (t : Tree) : 1 ≤ heightT t := by
  cases t with
  | mk cs v tav mav hs kr => simp [heightT]

theorem heightT_le_of_mem {c : Tree} {m : ℕ} :
    ∀ {cs : List (Tree × ℕ)}, (c, m) ∈ cs → heightT c ≤ heightT.heightList cs := by
  intro cs h
  induction cs with
  | nil => cases h
  | cons hd tl ih =>
    cases h with
    | head => simp [heightT.heightList]
    | tail _ h2 =>
      cases hd with
      | mk c2 m2 =>
        simp only [heightT.heightList]
        exact le_max_of_le_right (ih h2)

theorem heightT_lt_of_mem {c : Tree} {m : ℕ} {t : Tree} (h : (c, m) ∈ t.children) :
    heightT c < heightT t := by
  cases t with
  | mk cs v tav mav hs kr =>
    simp only [Tree.children] at h
    have := heightT_le_of_mem h
    simp only [heightT]
    omega

theorem mem_of_get?_eq_some {α : Type} :
    ∀ (l : List α) (n : ℕ) (a : α), l.get? n = some a → a ∈ l := by
  intro l
  induction l with
  | nil => intro n a h; simp [List.get?] at h
  | cons hd tl ih =>
    intro n a h
    cases n with
    | zero =>
      simp only [List.get?] at h
      cases h
      exact List.mem_cons_self _ _
    | succ k =>
      simp only [List.get?] at h
      exact List.mem_cons_of_mem _ (ih k a h)

theorem init_children_children (g : Game) (t : Tree) (b : ℕ) :
    (init_children g t b).children
      = t.children ++ (g.legal_moves b).map (fun p => (new_node p.2, p.1)) := by
  cases t with
  | mk cs v tav mav hs kr => rfl

theorem heightT_new_node (p : ℚ) : heightT (new_node p) = 1 := by
  simp [new_node, heightT, heightT.heightList]

theorem visits_new_node (p : ℚ) : (new_node p).visits = 0 := rfl

theorem descend_state_visits (g : Game) (t : Tree) (b : ℕ) :
    (descend_state g t b).visits = t.visits := by
  unfold descend_state
  split
  · cases t with
    | mk cs v tav mav hs kr => rfl
  · rfl

theorem descend_state_total (g : Game) (t : Tree) (b : ℕ) :
    (descend_state g t b).total_action_value = t.total_action_value := by
  unfold descend_state
  split
  · cases t with
    | mk cs v tav mav hs kr => rfl
  · rfl

theorem descend_state_heuristic (g : Game) (t : Tree) (b : ℕ) :
    (descend_state g t b).heuristic_score = t.heuristic_score := by
  unfold descend_state
  split
  · cases t with
    | mk cs v tav mav hs kr => rfl
  · rfl

theorem descend_state_known (g : Game) (t : Tree) (b : ℕ) :
    (descend_state g t b).known_result = t.known_result := by
  unfold descend_state
  split
  · cases t with
    | mk cs v tav mav hs kr => rfl
  · rfl

/-- Select on a node with a proven result (mcts.rs lines 171-174): bump
visits, accumulate the stored mean, return it. -/
theorem select_known (g : Game) (t : Tree) (b : ℕ) (h : t.known_result.isSome) :
    select g t b
      = (Tree.mk t.children (t.visits + 1)
          (t.total_action_value + t.mean_action_value) t.mean_action_value
          t.heuristic_score t.known_result,
        SearchResult.Value t.mean_action_value) := by
  rw [select.eq_def]
  simp [h]

/-- Select on an unvisited node without a proven result expands it
(mcts.rs lines 175-176). -/
theorem select_unvisited (g : Game) (t : Tree) (b : ℕ)
    (hkr : t.known_result = none) (hv : t.visits = 0) :
    select g t b = expand g t b := by
  rw [select.eq_def]
  simp [hkr, hv]

/-- Select in the descending case where the chosen child is not a proven win
for the child (mcts.rs lines 243-277): do the move, recurse, back up. -/
theorem select_descend (g : Game) (t : Tree) (b : ℕ) (child : Tree) (mv : ℕ)
    (hkr : t.known_result = none) (hv : t.visits ≠ 0)
    (hm : (descend_state g t b).children.get? (chosen_index g t b) = some (child, mv))
    (hcw : child.known_result ≠ some GameResultForUs.Win) :
    select g t b
      = backup (descend_state g t b) (chosen_index g t b) mv
          (select g child (g.do_move b mv)) := by
  rw [select.eq_def]
  simp only [hkr, Option.isSome_none, Bool.false_eq_true, if_false, hv, dite_eq_ite]
  have hlift :
      (match h2 : (descend_state g t b).children.get? (chosen_index g t b) with
        | none => ((descend_state g t b), SearchResult.Value 0)
        | some (child2, mv2) =>
          if child2.known_result = some GameResultForUs.Win then
            (Tree.mk (descend_state g t b).children 1 0 0
                (descend_state g t b).heuristic_score (some GameResultForUs.Loss),
              SearchResult.Decisive (descend_state g t b).visits
                (((descend_state g t b).visits : ℚ)
                  - (descend_state g t b).total_action_value) GameResultForUs.Loss)
          else
            backup (descend_state g t b) (chosen_index g t b) mv2
              (select g child2 (g.do_move b mv2)))
        = backup (descend_state g t b) (chosen_index g t b) mv
            (select g child (g.do_move b mv)) := by
    split
    · next h2 => rw [hm] at h2; cases h2
    · next child2 mv2 h2 =>
      rw [hm] at h2
      injection h2 with h3
      injection h3 with h4 h5
      subst h4
      subst h5
      rw [if_neg hcw]
  exact hlift

/-- Select when the chosen child is a proven win for the child
(mcts.rs lines 226-242): the node is all-losing; re-score it as a proven
loss and propagate a decisive event. -/
theorem select_all_losing (g : Game) (t : Tree) (b : ℕ) (child : Tree) (mv : ℕ)
    (hkr : t.known_result = none) (hv : t.visits ≠ 0)
    (hm : (descend_state g t b).children.get? (chosen_index g t b) = some (child, mv))
    (hcw : child.known_result = some GameResultForUs.Win) :
    select g t b
      = (Tree.mk (descend_state g t b).children 1 0 0 t.heuristic_score
            (some GameResultForUs.Loss),
          SearchResult.Decisive t.visits
            ((t.visits : ℚ) - t.total_action_value) GameResultForUs.Loss) := by
  rw [select.eq_def]
  simp only [hkr, Option.isSome_none, Bool.false_eq_true, if_false, hv, dite_eq_ite]
  have hgoal :
      (match h2 : (descend_state g t b).children.get? (chosen_index g t b) with
        | none => ((descend_state g t b), SearchResult.Value 0)
        | some (child2, mv2) =>
          if child2.known_result = some GameResultForUs.Win then
            (Tree.mk (descend_state g t b).children 1 0 0
                (descend_state g t b).heuristic_score (some GameResultForUs.Loss),
              SearchResult.Decisive (descend_state g t b).visits
                (((descend_state g t b).visits : ℚ)
                  - (descend_state g t b).total_action_value) GameResultForUs.Loss)
          else
            backup (descend_state g t b) (chosen_index g t b) mv2
              (select g child2 (g.do_move b mv2)))
        = (Tree.mk (descend_state g t b).children 1 0 0 t.heuristic_score
            (some GameResultForUs.Loss),
          SearchResult.Decisive t.visits
            ((t.visits : ℚ) - t.total_action_value) GameResultForUs.Loss) := by
    split
    · next h2 => rw [hm] at h2; cases h2
    · next child2 mv2 h2 =>
      rw [hm] at h2
      injection h2 with h3
      injection h3 with h4 h5
      subst h4
      subst h5
      rw [if_pos hcw, descend_state_visits, descend_state_total, descend_state_heuristic]
  exact hgoal

/-- Select in the descending case when the children list is empty: the source
panics there; the model returns a junk value without touching the node. -/
theorem select_no_children (g : Game) (t : Tree) (b : ℕ)
    (hkr : t.known_result = none) (hv : t.visits ≠ 0)
    (hm : (descend_state g t b).children.get? (chosen_index g t b) = none) :
    select g t b = (descend_state g t b, SearchResult.Value 0) := by
  rw [select.eq_def]
  simp only [hkr, Option.isSome_none, Bool.false_eq_true, if_false, hv, dite_eq_ite]
  have hgoal :
      (match h2 : (descend_state g t b).children.get? (chosen_index g t b) with
        | none => ((descend_state g t b), SearchResult.Value 0)
        | some (child2, mv2) =>
          if child2.known_result = some GameResultForUs.Win then
            (Tree.mk (descend_state g t b).children 1 0 0
                (descend_state g t b).heuristic_score (some GameResultForUs.Loss),
              SearchResult.Decisive (descend_state g t b).visits
                (((descend_state g t b).visits : ℚ)
                  - (descend_state g t b).total_action_value) GameResultForUs.Loss)
          else
            backup (descend_state g t b) (chosen_index g t b) mv2
              (select g child2 (g.do_move b mv2)))
        = ((descend_state g t b), SearchResult.Value 0) := by
    split
    · rfl
    · next child2 mv2 h2 => rw [hm] at h2; cases h2
  exact hgoal

/-- If some child in the scanned suffix has a proven Loss, the selection loop
returns the index of the first such child (the source breaks there). -/
theorem choose_child_loop_loss :
    ∀ (rest : List (Tree × ℕ)) (s : ℚ) (i best : ℕ) (bv : ℚ),
    (∃ p ∈ rest, p.1.known_result = some GameResultForUs.Loss) →
    ∃ k p, rest.get? k = some p ∧ p.1.known_result = some GameResultForUs.Loss
      ∧ (∀ m q, rest.get? m = some q → m < k
          → q.1.known_result ≠ some GameResultForUs.Loss)
      ∧ choose_child_loop rest s i best bv = i + k := by
  intro rest
  induction rest with
  | nil => intro s i best bv h; simp at h
  | cons hd tl ih =>
    intro s i best bv h
    obtain ⟨c, m⟩ := hd
    by_cases hL : c.known_result = some GameResultForUs.Loss
    · refine ⟨0, (c, m), rfl, hL, ?_, ?_⟩
      · intro m2 q _ hlt; omega
      · simp [choose_child_loop, hL]
    · have htl : ∃ p ∈ tl, p.1.known_result = some GameResultForUs.Loss := by
        rcases h with ⟨p, hp, hpl⟩
        rcases List.mem_cons.mp hp with rfl | hmem
        · exact absurd hpl hL
        · exact ⟨p, hmem, hpl⟩
      by_cases hW : c.known_result = some GameResultForUs.Win
      · obtain ⟨k, p, hk, hpl, hfirst, hres⟩ := ih s (i+1) best bv htl
        refine ⟨k + 1, p, by simpa using hk, hpl, ?_, ?_⟩
        · intro m2 q hq hlt
          cases m2 with
          | zero =>
            simp only [List.get?] at hq
            cases hq
            exact hL
          | succ m3 =>
            simp only [List.get?] at hq
            exact hfirst m3 q hq (by omega)
        · have hstep : choose_child_loop ((c, m) :: tl) s i best bv
              = choose_child_loop tl s (i+1) best bv := by
            simp [choose_child_loop, hW, hL]
          rw [hstep, hres]; omega
      · obtain ⟨k, p, hk, hpl, hfirst, hres⟩ := ih s (i+1) i (exploration_value c s) htl
        obtain ⟨k', p', hk', hpl', hfirst', hres'⟩ := ih s (i+1) best bv htl
        refine ⟨k + 1, p, by simpa using hk, hpl, ?_, ?_⟩
        · intro m2 q hq hlt
          cases m2 with
          | zero =>
            simp only [List.get?] at hq
            cases hq
            exact hL
          | succ m3 =>
            simp only [List.get?] at hq
            exact hfirst m3 q hq (by omega)
        · have hkk : k = k' := by
            rcases Nat.lt_trichotomy k k' with hlt | heq | hgt
            · exact absurd hpl (hfirst' k p hk hlt)
            · exact heq
            · exact absurd hpl' (hfirst k' p' hk' hgt)
          have hstep : choose_child_loop ((c, m) :: tl) s i best bv
              = if bv ≤ exploration_value c s then
                  choose_child_loop tl s (i+1) i (exploration_value c s)
                else choose_child_loop tl s (i+1) best bv := by
            simp [choose_child_loop, hW, hL]
          rw [hstep]
          by_cases hle : bv ≤ exploration_value c s
          · rw [if_pos hle, hres]; omega
          · rw [if_neg hle, hres']; omega

/-- If every scanned child is a proven Win, the loop never updates its
accumulator and returns the incoming best index. -/
theorem choose_child_loop_all_win :
    ∀ (rest : List (Tree × ℕ)) (s : ℚ) (i best : ℕ) (bv : ℚ),
    (∀ p ∈ rest, p.1.known_result = some GameResultForUs.Win) →
    choose_child_loop rest s i best bv = best := by
  intro rest
  induction rest with
  | nil => intro s i best bv _; rfl
  | cons hd tl ih =>
    intro s i best bv h
    obtain ⟨c, m⟩ := hd
    have hW : c.known_result = some GameResultForUs.Win :=
      h (c, m) (List.mem_cons_self _ _)
    have hstep : choose_child_loop ((c, m) :: tl) s i best bv
        = choose_child_loop tl s (i+1) best bv := by
      simp [choose_child_loop, hW]
    rw [hstep]
    exact ih s (i+1) best bv (fun p hp => h p (List.mem_cons_of_mem _ hp))

/-- Without a proven-Loss child, the loop either returns an index of a child
that attains the maximal exploration value among the non-Win children seen
so far (ties to the last index), or returns the incoming best index with
every non-Win child scoring strictly below the incoming best value. -/
theorem choose_child_loop_max :
    ∀ (rest : List (Tree × ℕ)) (s : ℚ) (i best : ℕ) (bv : ℚ),
    (∀ p ∈ rest, p.1.known_result ≠ some GameResultForUs.Loss) →
    (∃ k p, rest.get? k = some p ∧ p.1.known_result ≠ some GameResultForUs.Win
        ∧ bv ≤ exploration_value p.1 s
        ∧ choose_child_loop rest s i best bv = i + k
        ∧ (∀ m q, rest.get? m = some q → q.1.known_result ≠ some GameResultForUs.Win
            → exploration_value q.1 s ≤ exploration_value p.1 s)
        ∧ (∀ m q, rest.get? m = some q → q.1.known_result ≠ some GameResultForUs.Win
            → k < m → exploration_value q.1 s < exploration_value p.1 s))
      ∨ (choose_child_loop rest s i best bv = best
          ∧ ∀ m q, rest.get? m = some q → q.1.known_result ≠ some GameResultForUs.Win
              → exploration_value q.1 s < bv) := by
  intro rest
  induction rest with
  | nil =>
    intro s i best bv _
    right
    exact ⟨rfl, by intro m q hq _; simp [List.get?] at hq⟩
  | cons hd tl ih =>
    intro s i best bv hnl
    obtain ⟨c, m⟩ := hd
    have hcL : c.known_result ≠ some GameResultForUs.Loss :=
      hnl (c, m) (List.mem_cons_self _ _)
    have htlL : ∀ p ∈ tl, p.1.known_result ≠ some GameResultForUs.Loss :=
      fun p hp => hnl p (List.mem_cons_of_mem _ hp)
    by_cases hW : c.known_result = some GameResultForUs.Win
    · have hstep : choose_child_loop ((c, m) :: tl) s i best bv
          = choose_child_loop tl s (i+1) best bv := by
        simp [choose_child_loop, hW]
      rcases ih s (i+1) best bv htlL with
        ⟨k, p, hk, hpw, hbv, hres, hmax, hlast⟩ | ⟨hres, hall⟩
      · left
        refine ⟨k + 1, p, by simpa using hk, hpw, hbv, by rw [hstep, hres]; omega, ?_, ?_⟩
        · intro m2 q hq hqw
          cases m2 with
          | zero =>
            simp only [List.get?] at hq
            cases hq
            exact absurd hW hqw
          | succ m3 =>
            simp only [List.get?] at hq
            exact hmax m3 q hq hqw
        · intro m2 q hq hqw hlt
          cases m2 with
          | zero => omega
          | succ m3 =>
            simp only [List.get?] at hq
            exact hlast m3 q hq hqw (by omega)
      · right
        refine ⟨by rw [hstep, hres], ?_⟩
        intro m2 q hq hqw
        cases m2 with
        | zero =>
          simp only [List.get?] at hq
          cases hq
          exact absurd hW hqw
        | succ m3 =>
          simp only [List.get?] at hq
          exact hall m3 q hq hqw
    · have hstep : choose_child_loop ((c, m) :: tl) s i best bv
          = if bv ≤ exploration_value c s then
              choose_child_loop tl s (i+1) i (exploration_value c s)
            else choose_child_loop tl s (i+1) best bv := by
        simp [choose_child_loop, hW, hcL]
      by_cases hle : bv ≤ exploration_value c s
      · rcases ih s (i+1) i (exploration_value c s) htlL with
          ⟨k, p, hk, hpw, hbv, hres, hmax, hlast⟩ | ⟨hres, hall⟩
        · left
          refine ⟨k + 1, p, by simpa using hk, hpw, le_trans hle hbv,
            by rw [hstep, if_pos hle, hres]; omega, ?_, ?_⟩
          · intro m2 q hq hqw
            cases m2 with
            | zero =>
              simp only [List.get?] at hq
              cases hq
              exact hbv
            | succ m3 =>
              simp only [List.get?] at hq
              exact hmax m3 q hq hqw
          · intro m2 q hq hqw hlt
            cases m2 with
            | zero => omega
            | succ m3 =>
              simp only [List.get?] at hq
              exact hlast m3 q hq hqw (by omega)
        · left
          refine ⟨0, (c, m), rfl, hW, hle, by rw [hstep, if_pos hle, hres]; omega, ?_, ?_⟩
          · intro m2 q hq hqw
            cases m2 with
            | zero =>
              simp only [List.get?] at hq
              cases hq
              exact le_refl _
            | succ m3 =>
              simp only [List.get?] at hq
              exact le_of_lt (hall m3 q hq hqw)
          · intro m2 q hq hqw hlt
            cases m2 with
            | zero => omega
            | succ m3 =>
              simp only [List.get?] at hq
              exact hall m3 q hq hqw
      · rcases ih s (i+1) best bv htlL with
          ⟨k, p, hk, hpw, hbv, hres, hmax, hlast⟩ | ⟨hres, hall⟩
        · left
          refine ⟨k + 1, p, by simpa using hk, hpw, hbv,
            by rw [hstep, if_neg hle, hres]; omega, ?_, ?_⟩
          · intro m2 q hq hqw
            cases m2 with
            | zero =>
              simp only [List.get?] at hq
              cases hq
              exact le_trans (le_of_not_le hle) hbv
            | succ m3 =>
              simp only [List.get?] at hq
              exact hmax m3 q hq hqw
          · intro m2 q hq hqw hlt
            cases m2 with
            | zero => omega
            | succ m3 =>
              simp only [List.get?] at hq
              exact hlast m3 q hq hqw (by omega)
        · right
          refine ⟨by rw [hstep, if_neg hle, hres], ?_⟩
          intro m2 q hq hqw
          cases m2 with
          | zero =>
            simp only [List.get?] at hq
            cases hq
            exact lt_of_not_le hle
          | succ m3 =>
            simp only [List.get?] at hq
            exact hall m3 q hq hqw

/-- The loop result is either the incoming best index or an offset index of
one of the scanned children. -/
theorem choose_child_loop_bound :
    ∀ (rest : List (Tree × ℕ)) (s : ℚ) (i best : ℕ) (bv : ℚ),
    choose_child_loop rest s i best bv = best
      ∨ ∃ k < rest.length, choose_child_loop rest s i best bv = i + k := by
  intro rest
  induction rest with
  | nil => intro s i best bv; left; rfl
  | cons hd tl ih =>
    intro s i best bv
    obtain ⟨c, m⟩ := hd
    by_cases hL : c.known_result = some GameResultForUs.Loss
    · right
      refine ⟨0, by simp, ?_⟩
      simp [choose_child_loop, hL]
    · by_cases hW : c.known_result = some GameResultForUs.Win
      · have hstep : choose_child_loop ((c, m) :: tl) s i best bv
            = choose_child_loop tl s (i+1) best bv := by
          simp [choose_child_loop, hW, hL]
        rw [hstep]
        rcases ih s (i+1) best bv with h | ⟨k, hk, h⟩
        · left; exact h
        · right; exact ⟨k + 1, by simp; omega, by rw [h]; omega⟩
      · have hstep : choose_child_loop ((c, m) :: tl) s i best bv
            = if bv ≤ exploration_value c s then
                choose_child_loop tl s (i+1) i (exploration_value c s)
              else choose_child_loop tl s (i+1) best bv := by
          simp [choose_child_loop, hW, hL]
        rw [hstep]
        by_cases hle : bv ≤ exploration_value c s
        · rw [if_pos hle]
          rcases ih s (i+1) i (exploration_value c s) with h | ⟨k, hk, h⟩
          · right; exact ⟨0, by simp, by rw [h]; omega⟩
          · right; exact ⟨k + 1, by simp; omega, by rw [h]; omega⟩
        · rw [if_neg hle]
          rcases ih s (i+1) best bv with h | ⟨k, hk, h⟩
          · left; exact h
          · right; exact ⟨k + 1, by simp; omega, by rw [h]; omega⟩

/-- On a non-empty children list choose_child returns a valid index. -/
theorem choose_child_lt_length (children : List (Tree × ℕ)) (s : ℚ)
    (h : children ≠ []) : choose_child children s < children.length := by
  have hlen : 0 < children.length := List.length_pos.mpr h
  rcases choose_child_loop_bound children s 0 0 0 with h2 | ⟨k, hk, h2⟩
  · rw [choose_child, h2]; exact hlen
  · rw [choose_child, h2]; omega

theorem expand_children (g : Game) (t : Tree) (b : ℕ) :
    (expand g t b).1.children = t.children := by
  unfold expand
  rcases g.game_result b with _ | gr
  · rfl
  · rfl

@[simp] theorem Tree.children_mk (cs : List (Tree × ℕ)) (v : ℕ) (tav mav hs : ℚ)
    (kr : Option GameResultForUs) : (Tree.mk cs v tav mav hs kr).children = cs := rfl

@[simp] theorem Tree.visits_mk (cs : List (Tree × ℕ)) (v : ℕ) (tav mav hs : ℚ)
    (kr : Option GameResultForUs) : (Tree.mk cs v tav mav hs kr).visits = v := rfl

@[simp] theorem Tree.total_mk (cs : List (Tree × ℕ)) (v : ℕ) (tav mav hs : ℚ)
    (kr : Option GameResultForUs) :
    (Tree.mk cs v tav mav hs kr).total_action_value = tav := rfl

@[simp] theorem Tree.mean_mk (cs : List (Tree × ℕ)) (v : ℕ) (tav mav hs : ℚ)
    (kr : Option GameResultForUs) :
    (Tree.mk cs v tav mav hs kr).mean_action_value = mav := rfl

@[simp] theorem Tree.heuristic_mk (cs : List (Tree × ℕ)) (v : ℕ) (tav mav hs : ℚ)
    (kr : Option GameResultForUs) :
    (Tree.mk cs v tav mav hs kr).heuristic_score = hs := rfl

@[simp] theorem Tree.known_mk (cs : List (Tree × ℕ)) (v : ℕ) (tav mav hs : ℚ)
    (kr : Option GameResultForUs) :
    (Tree.mk cs v tav mav hs kr).known_result = kr := rfl

theorem backup_children (t1 : Tree) (i mv : ℕ) (co : Tree × SearchResult) :
    (backup t1 i mv co).1.children = t1.children.set i (co.1, mv) := by
  obtain ⟨c, res⟩ := co
  by_cases h : c.known_result = some GameResultForUs.Loss
  · simp [backup, h]
  · rcases res with v | ⟨nodes, av, r⟩
    · simp [backup, h, SearchResult.not]
    · simp [backup, h, SearchResult.not]

theorem get_node_congr {t t' : Tree} (h : t'.children = t.children)
    (i : ℕ) (rest : List ℕ) : get_node t' (i :: rest) = get_node t (i :: rest) := by
  unfold get_node
  rw [h]

theorem get_node_cons {t : Tree} {i : ℕ} {rest : List ℕ} {u : Tree}
    (h : get_node t (i :: rest) = some u) :
    ∃ c m, t.children.get? i = some (c, m) ∧ get_node c rest = some u := by
  unfold get_node at h
  rcases hm : t.children.get? i with _ | ⟨c, m⟩
  · rw [hm] at h; cases h
  · rw [hm] at h
    exact ⟨c, m, rfl, h⟩

theorem get_node_eq_of_get? {t' c : Tree} {i m : ℕ}
    (h : t'.children.get? i = some (c, m)) (rest : List ℕ) :
    get_node t' (i :: rest) = get_node c rest := by
  have hstep : get_node t' (i :: rest)
      = match t'.children.get? i with
        | some (c2, _) => get_node c2 rest
        | none => none := rfl
  rw [hstep, h]

theorem get_node_new_node {p : ℚ} {path : List ℕ} {u : Tree}
    (h : get_node (new_node p) path = some u) : u = new_node p := by
  cases path with
  | nil => cases h; rfl
  | cons i rest =>
    obtain ⟨c, m, hc, _⟩ := get_node_cons h
    simp [new_node, Tree.children, List.get?] at hc

/-- The children list after the optional lazy initialization extends the
original children list at the original indices. -/
theorem descend_state_get?_of_lt (g : Game) (t : Tree) (b : ℕ) {i : ℕ}
    {c : Tree} {m : ℕ} (h : t.children.get? i = some (c, m)) :
    (descend_state g t b).children.get? i = some (c, m) := by
  unfold descend_state
  split
  · rw [init_children_children]
    have hlt : i < t.children.length := by
      by_contra hge
      rw [List.get?_eq_none.mpr (by omega)] at h
      cases h
    rw [List.get?_append hlt]
    exact h
  · exact h

/-- Children taken from the post-initialization list are either original
children or freshly created leaves. -/
theorem descend_state_child_cases (g : Game) (t : Tree) (b : ℕ) {j : ℕ}
    {c : Tree} {m : ℕ}
    (h : (descend_state g t b).children.get? j = some (c, m)) :
    (c, m) ∈ t.children ∨ ∃ p, c = new_node p := by
  have hmem := mem_of_get?_eq_some _ _ _ h
  unfold descend_state at hmem
  split at hmem
  · rw [init_children_children] at hmem
    rcases List.mem_append.mp hmem with hc | hc
    · exact Or.inl hc
    · rcases List.mem_map.mp hc with ⟨p, _, hp⟩
      right
      refine ⟨p.2, ?_⟩
      have := congrArg Prod.fst hp
      simpa using this.symm
  · exact Or.inl hmem

/-- C6 supporting theorem: one call of select never changes an
already-proven known_result anywhere in the tree (stated over paths). -/
theorem select_preserves_known_aux (g : Game) :
    ∀ (n : ℕ) (t : Tree), heightT t ≤ n → ∀ (b : ℕ) (path : List ℕ) (r : GameResultForUs)
      (u : Tree), get_node t path = some u → u.known_result = some r →
      ∃ u', get_node (select g t b).1 path = some u' ∧ u'.known_result = some r := by
  intro n
  induction n with
  | zero =>
    intro t ht
    have := one_le_heightT t
    omega
  | succ n ih =>
    intro t ht b path r u hget hknown
    by_cases hk : t.known_result.isSome
    · rw [select_known g t b hk]
      cases path with
      | nil =>
        cases hget
        exact ⟨_, rfl, by simpa using hknown⟩
      | cons i rest =>
        rw [get_node_congr (Tree.children_mk _ _ _ _ _ _) i rest]
        exact ⟨u, hget, hknown⟩
    · have hk' : t.known_result = none := Option.not_isSome_iff_eq_none.mp hk
      by_cases hv : t.visits = 0
      · rw [select_unvisited g t b hk' hv]
        cases path with
        | nil =>
          cases hget
          rw [hk'] at hknown
          cases hknown
        | cons i rest =>
          rw [get_node_congr (expand_children g t b) i rest]
          exact ⟨u, hget, hknown⟩
      · rcases hm : (descend_state g t b).children.get? (chosen_index g t b)
          with _ | ⟨child, mv⟩
        · rw [select_no_children g t b hk' hv hm]
          cases path with
          | nil =>
            cases hget
            rw [hk'] at hknown
            cases hknown
          | cons i rest =>
            obtain ⟨c, m, hci, hrest⟩ := get_node_cons hget
            refine ⟨u, ?_, hknown⟩
            rw [get_node_eq_of_get? (descend_state_get?_of_lt g t b hci) rest]
            exact hrest
        · by_cases hcw : child.known_result = some GameResultForUs.Win
          · rw [select_all_losing g t b child mv hk' hv hm hcw]
            cases path with
            | nil =>
              cases hget
              rw [hk'] at hknown
              cases hknown
            | cons i rest =>
              obtain ⟨c, m, hci, hrest⟩ := get_node_cons hget
              refine ⟨u, ?_, hknown⟩
              have hget2 : (Tree.mk (descend_state g t b).children 1 0 0
                  t.heuristic_score (some GameResultForUs.Loss)).children.get? i
                    = some (c, m) := by
                rw [Tree.children_mk]
                exact descend_state_get?_of_lt g t b hci
              rw [get_node_eq_of_get? hget2 rest]
              exact hrest
          · rw [select_descend g t b child mv hk' hv hm hcw]
            cases path with
            | nil =>
              cases hget
              rw [hk'] at hknown
              cases hknown
            | cons i rest =>
              obtain ⟨c, m, hci, hrest⟩ := get_node_cons hget
              have hcilt : i < t.children.length := by
                by_contra hge
                rw [List.get?_eq_none.mpr (by omega)] at hci
                cases hci
              by_cases hij : i = chosen_index g t b
              · subst hij
                have hcc : (c, m) = (child, mv) := by
                  have h2 := descend_state_get?_of_lt g t b hci
                  rw [hm] at h2
                  injection h2 with h3
                  exact h3.symm
                have hc1 : c = child := congrArg Prod.fst hcc
                rw [hc1] at hrest
                rcases descend_state_child_cases g t b hm with hmem | ⟨p, hfresh⟩
                · have hht : heightT child ≤ n := by
                    have := heightT_lt_of_mem hmem
                    omega
                  obtain ⟨u', hu', hu'k⟩ :=
                    ih child hht (g.do_move b mv) rest r u hrest hknown
                  refine ⟨u', ?_, hu'k⟩
                  have hlt : chosen_index g t b < (descend_state g t b).children.length := by
                    by_contra hge
                    rw [List.get?_eq_none.mpr (by omega)] at hm
                    cases hm
                  have hget2 : (backup (descend_state g t b) (chosen_index g t b) mv
                      (select g child (g.do_move b mv))).1.children.get? (chosen_index g t b)
                        = some ((select g child (g.do_move b mv)).1, mv) := by
                    rw [backup_children]
                    exact List.get?_set_eq_of_lt _ hlt
                  rw [get_node_eq_of_get? hget2 rest]
                  exact hu'
                · subst hfresh
                  have := get_node_new_node hrest
                  subst this
                  rw [hknown] at hcw
                  exact absurd hknown (by simp [new_node])
              · refine ⟨u, ?_, hknown⟩
                have hget2 : (backup (descend_state g t b) (chosen_index g t b) mv
                    (select g child (g.do_move b mv))).1.children.get? i = some (c, m) := by
                  rw [backup_children]
                  rw [List.get?_set_ne _ _ (fun hcon => hij hcon.symm)]
                  exact descend_state_get?_of_lt g t b hci
                rw [get_node_eq_of_get? hget2 rest]
                exact hrest

/-- Concrete run: selecting at tZ takes the all-losing branch. -/
theorem selZ (b : ℕ) : select gD tZ b
    = (Tree.mk [(tT, 3)] 1 0 0 0 (some GameResultForUs.Loss),
       SearchResult.Decisive 2 (3/2) GameResultForUs.Loss) := by
  have hm : (descend_state gD tZ b).children.get? (chosen_index gD tZ b)
      = some (tT, 3) := by
    norm_num [descend_state, chosen_index, choose_child, choose_child_loop,
      exploration_value, C_PUCT, tZ, tT, gD]
  rw [select_all_losing gD tZ b tT 3 rfl (by decide) hm (by decide)]
  norm_num [tZ, tT, descend_state, gD]

/-- Concrete run: selecting at tY discovers the proven loss below and
re-scores tY as a proven win. -/
theorem selY (b : ℕ) : select gD tY b
    = (Tree.mk [(Tree.mk [(tT, 3)] 1 0 0 0 (some GameResultForUs.Loss), 2)] 1 1 1 0
          (some GameResultForUs.Win),
       SearchResult.Decisive 3 2 GameResultForUs.Win) := by
  have hm : (descend_state gD tY b).children.get? (chosen_index gD tY b)
      = some (tZ, 2) := by
    norm_num [descend_state, chosen_index, choose_child, choose_child_loop,
      exploration_value, C_PUCT, tY, tZ, gD]
  rw [select_descend gD tY b tZ 2 rfl (by decide) hm (by decide), selZ]
  norm_num [tY, tZ, descend_state, chosen_index, choose_child, choose_child_loop,
    exploration_value, C_PUCT, gD, backup, SearchResult.not, GameResultForUs.not]

/-- Concrete run: selecting at tX passes the decisive event through the
arithmetic back-propagation branch. -/
theorem selX (b : ℕ) : select gD tX b
    = (Tree.mk [(Tree.mk [(Tree.mk [(tT, 3)] 1 0 0 0 (some GameResultForUs.Loss), 2)]
            1 1 1 0 (some GameResultForUs.Win), 1)] 2 (1/2) (1/4) 0 none,
       SearchResult.Decisive 3 1 GameResultForUs.Loss) := by
  have hm : (descend_state gD tX b).children.get? (chosen_index gD tX b)
      = some (tY, 1) := by
    norm_num [descend_state, chosen_index, choose_child, choose_child_loop,
      exploration_value, C_PUCT, tX, tY, gD]
  rw [select_descend gD tX b tY 1 rfl (by decide) hm (by decide), selY]
  norm_num [tX, tY, descend_state, chosen_index, choose_child, choose_child_loop,
    exploration_value, C_PUCT, gD, backup, SearchResult.not, GameResultForUs.not,
    (by decide : ¬(GameResultForUs.Win = GameResultForUs.Loss)),
    (by decide : ¬(GameResultForUs.Loss = GameResultForUs.Win)),
    (by decide : ¬((some GameResultForUs.Win : Option GameResultForUs)
        = some GameResultForUs.Loss))]

/-- Concrete run: selecting at tP receives a Decisive(3, 2, Win) event and
applies the arithmetic back-propagation branch. -/
theorem selP (b : ℕ) : select gD tP b
    = (Tree.mk [(Tree.mk [(Tree.mk [(Tree.mk [(tT, 3)] 1 0 0 0
              (some GameResultForUs.Loss), 2)] 1 1 1 0 (some GameResultForUs.Win), 1)]
            2 (1/2) (1/4) 0 none, 0)] 3 2 (2/3) 0 none,
       SearchResult.Decisive 3 2 GameResultForUs.Win) := by
  have hm : (descend_state gD tP b).children.get? (chosen_index gD tP b)
      = some (tX, 0) := by
    norm_num [descend_state, chosen_index, choose_child, choose_child_loop,
      exploration_value, C_PUCT, tP, tX, gD]
  rw [select_descend gD tP b tX 0 rfl (by decide) hm (by decide), selX]
  norm_num [tP, tX, descend_state, chosen_index, choose_child, choose_child_loop,
    exploration_value, C_PUCT, gD, backup, SearchResult.not, GameResultForUs.not,
    (by decide : ¬(GameResultForUs.Win = GameResultForUs.Loss)),
    (by decide : ¬(GameResultForUs.Loss = GameResultForUs.Win)),
    (by decide : ¬((none : Option GameResultForUs) = some GameResultForUs.Loss))]

/-- Concrete run: the first select on the g5 root expands it. -/
theorem sel5a : select g5 new_root 0 = (t5a, SearchResult.Value (1/2)) := by
  rw [select_unvisited g5 new_root 0 rfl rfl]
  norm_num [expand, g5, new_root, t5a]

/-- Concrete run: the second select on the g5 root expands the fresh child to
a proven loss for the child and re-scores the root as a proven win; the root
visit count stays at 1. -/
theorem sel5b : select g5 t5a 0
    = (Tree.mk [(Tree.mk [] 1 0 0 (1/2) (some GameResultForUs.Loss), 0)] 1 1 1 0
          (some GameResultForUs.Win),
       SearchResult.Decisive 1 (1/2) GameResultForUs.Win) := by
  have hfresh : select g5 (new_node (1/2)) (g5.do_move 0 0)
      = (Tree.mk [] 1 0 0 (1/2) (some GameResultForUs.Loss), SearchResult.Value 0) := by
    rw [select_unvisited g5 (new_node (1/2)) (g5.do_move 0 0) rfl rfl]
    norm_num [expand, g5, new_node, result_for_us, GameResultForUs.score]
  have hm : (descend_state g5 t5a 0).children.get? (chosen_index g5 t5a 0)
      = some (new_node (1/2), 0) := by
    norm_num [descend_state, chosen_index, choose_child, choose_child_loop,
      exploration_value, C_PUCT, t5a, init_children, new_node, g5]
  rw [select_descend g5 t5a 0 (new_node (1/2)) 0 rfl (by decide) hm (by decide), hfresh]
  norm_num [t5a, descend_state, chosen_index, choose_child, choose_child_loop,
    exploration_value, C_PUCT, init_children, new_node, g5, backup]

theorem get?_of_mem {α : Type} {a : α} :
    ∀ {l : List α}, a ∈ l → ∃ n, l.get? n = some a := by
  intro l h
  induction l with
  | nil => cases h
  | cons hd tl ih =>
    rcases List.mem_cons.mp h with rfl | h2
    · exact ⟨0, rfl⟩
    · obtain ⟨n, hn⟩ := ih h2
      exact ⟨n + 1, by simpa using hn⟩

/-- C1 (amended): in the arithmetic back-propagation branch, on a negated
Decisive(nodes, action_value, result) event from the chosen child (the child
not having become a proven loss for it), the node adds one visit, subtracts
nodes from visits and action_value from total_action_value, and re-adds the
fixed score of a SINGLE visit — 1.0 when result is Win and 0.0 otherwise —
before recomputing mean_action_value = total_action_value / visits. -/
theorem select_decisive_backprop_amended (g : Game) (t : Tree) (b : ℕ)
    (child child' : Tree) (mv : ℕ) (res0 : SearchResult) (nodes : ℕ) (av : ℚ)
    (res : GameResultForUs)
    (hkr : t.known_result = none) (hv : t.visits ≠ 0)
    (hm : (descend_state g t b).children.get? (chosen_index g t b) = some (child, mv))
    (hcw : child.known_result ≠ some GameResultForUs.Win)
    (hrec : select g child (g.do_move b mv) = (child', res0))
    (hcl : child'.known_result ≠ some GameResultForUs.Loss)
    (hres : res0.not = SearchResult.Decisive nodes av res) :
    select g t b
      = (Tree.mk ((descend_state g t b).children.set (chosen_index g t b) (child', mv))
          (t.visits + 1 - nodes)
          (t.total_action_value - av + (if res = GameResultForUs.Win then 1 else 0))
          ((t.total_action_value - av + (if res = GameResultForUs.Win then 1 else 0))
            / ((t.visits + 1 - nodes : ℕ) : ℚ))
          t.heuristic_score none,
        SearchResult.Decisive nodes av res) := by
  rw [select_descend g t b child mv hkr hv hm hcw, hrec]
  have h1 := descend_state_visits g t b
  have h2 := descend_state_total g t b
  have h3 := descend_state_heuristic g t b
  have h4 := descend_state_known g t b
  simp [backup, hcl, hres, h1, h2, h3, h4, hkr]

/-- C1 counterexample: at the concrete node tP a Decisive(3, 2, Win) event
arrives; the claim predicts total_action_value = 3 - 2 + 3 x 1.0 = 4, the
code produces 2. -/
theorem select_decisive_backprop_claim_false :
    (select gD tP 0).2 = SearchResult.Decisive 3 2 GameResultForUs.Win
    ∧ tP.total_action_value = 3
    ∧ (select gD tP 0).1.total_action_value = 2
    ∧ ¬ ((select gD tP 0).1.total_action_value
        = tP.total_action_value - 2 + (3 : ℚ) * 1) := by
  rw [selP 0]
  norm_num [tP]

/-- C1 witness: the amended back-propagation equation instantiated at the
concrete node tP with its Decisive(3, 2, Win) event. -/
theorem select_decisive_backprop_witness :
    tP.known_result = none ∧ tP.visits ≠ 0
    ∧ (select gD tP 0).1.total_action_value
        = tP.total_action_value - 2
          + (if GameResultForUs.Win = GameResultForUs.Win then (1 : ℚ) else 0)
    ∧ (select gD tP 0).1.visits = tP.visits + 1 - 3 := by
  have hm : (descend_state gD tP 0).children.get? (chosen_index gD tP 0)
      = some (tX, 0) := by
    norm_num [descend_state, chosen_index, choose_child, choose_child_loop,
      exploration_value, C_PUCT, tP, tX, gD]
  have h := select_decisive_backprop_amended gD tP 0 tX
    (Tree.mk [(Tree.mk [(Tree.mk [(tT, 3)] 1 0 0 0 (some GameResultForUs.Loss), 2)]
        1 1 1 0 (some GameResultForUs.Win), 1)] 2 (1/2) (1/4) 0 none)
    0 (SearchResult.Decisive 3 1 GameResultForUs.Loss) 3 2 GameResultForUs.Win
    rfl (by decide) hm (by decide) (selX (gD.do_move 0 0)) (by decide)
    (by norm_num [SearchResult.not, GameResultForUs.not])
  refine ⟨rfl, by decide, ?_, ?_⟩
  · rw [h]
    simp
  · rw [h]
    simp

/-- C2 (amended): the selection loop picks a proven-Win child exactly when
every child is a proven win for the child; in that case the node re-scores
itself as a proven Loss and returns a Decisive event whose first component
is the previous visit count and whose SECOND component is previous visits
MINUS previous total_action_value (so that the parent's negation turns it
into the previous total_action_value). -/
theorem select_all_losing_amended (g : Game) (t : Tree) (b : ℕ)
    (hkr : t.known_result = none) (hv : t.visits ≠ 0)
    (hne : (descend_state g t b).children ≠ [])
    (hvals : ∀ p ∈ (descend_state g t b).children,
        p.1.known_result ≠ some GameResultForUs.Win →
        0 ≤ exploration_value p.1 (g.sqrt_fn (descend_state g t b).visits)) :
    ((∃ child mv, (descend_state g t b).children.get? (chosen_index g t b)
          = some (child, mv) ∧ child.known_result = some GameResultForUs.Win)
      ↔ (∀ p ∈ (descend_state g t b).children,
          p.1.known_result = some GameResultForUs.Win))
    ∧ ((∀ p ∈ (descend_state g t b).children,
          p.1.known_result = some GameResultForUs.Win) →
        select g t b
          = (Tree.mk (descend_state g t b).children 1 0 0 t.heuristic_score
                (some GameResultForUs.Loss),
             SearchResult.Decisive t.visits
               ((t.visits : ℚ) - t.total_action_value) GameResultForUs.Loss)) := by
  have hchosen : chosen_index g t b
      = choose_child (descend_state g t b).children
          (g.sqrt_fn (descend_state g t b).visits) := rfl
  have hallwin : (∀ p ∈ (descend_state g t b).children,
      p.1.known_result = some GameResultForUs.Win) →
      ∃ child mv, (descend_state g t b).children.get? (chosen_index g t b)
        = some (child, mv) ∧ child.known_result = some GameResultForUs.Win := by
    intro hall
    have hzero : chosen_index g t b = 0 := by
      rw [hchosen, choose_child]
      exact choose_child_loop_all_win _ _ 0 0 0 hall
    rcases hcs : (descend_state g t b).children with _ | ⟨⟨c0, m0⟩, tl⟩
    · exact absurd hcs hne
    · refine ⟨c0, m0, ?_, ?_⟩
      · rw [hzero]
        rfl
      · exact hall (c0, m0) (hcs.symm ▸ List.mem_cons_self (c0, m0) tl)
  constructor
  · constructor
    · rintro ⟨child, mv, hm, hw⟩ p hp
      by_contra hpw
      by_cases hL : ∃ q ∈ (descend_state g t b).children,
          q.1.known_result = some GameResultForUs.Loss
      · obtain ⟨k, q, hk, hql, _, hcc⟩ := choose_child_loop_loss
          (descend_state g t b).children
          (g.sqrt_fn (descend_state g t b).visits) 0 0 0 hL
        have hck : chosen_index g t b = k := by
          rw [hchosen, choose_child, hcc]
          omega
        rw [hck, hk] at hm
        injection hm with hm2
        have hq1 : q.1 = child := congrArg Prod.fst hm2
        rw [hq1, hw] at hql
        exact absurd hql (by decide)
      · push_neg at hL
        rcases choose_child_loop_max (descend_state g t b).children
            (g.sqrt_fn (descend_state g t b).visits) 0 0 0 hL with
          ⟨k, q, hk, hqw, _, hres2, _, _⟩ | ⟨_, hall2⟩
        · have hck : chosen_index g t b = k := by
            rw [hchosen, choose_child, hres2]
            omega
          rw [hck, hk] at hm
          injection hm with hm2
          have hq1 : q.1 = child := congrArg Prod.fst hm2
          exact hqw (hq1.symm ▸ hw)
        · obtain ⟨n, hn⟩ := get?_of_mem hp
          exact absurd (hvals p hp hpw) (not_le.mpr (hall2 n p hn hpw))
    · intro hall
      exact hallwin hall
  · intro hall
    obtain ⟨child, mv, hm, hw⟩ := hallwin hall
    exact select_all_losing g t b child mv hkr hv hm hw

/-- C2 counterexample: at the concrete node tZ (visits 2, total 1/2) the
returned Decisive event carries 2 - 1/2 = 3/2 as its second component, not
the previous total_action_value 1/2. -/
theorem select_all_losing_claim_false :
    tZ.visits = 2 ∧ tZ.total_action_value = 1/2
    ∧ (select gD tZ 0).2 = SearchResult.Decisive 2 (3/2) GameResultForUs.Loss
    ∧ (select gD tZ 0).1.known_result = some GameResultForUs.Loss
    ∧ ¬ ((select gD tZ 0).2
        = SearchResult.Decisive tZ.visits tZ.total_action_value GameResultForUs.Loss) := by
  rw [selZ 0]
  norm_num [tZ]

/-- C2 witness: the amended theorem instantiated at tZ, whose single child
is a proven win for the child. -/
theorem select_all_losing_witness :
    (∀ p ∈ (descend_state gD tZ 0).children,
        p.1.known_result = some GameResultForUs.Win)
    ∧ select gD tZ 0
      = (Tree.mk (descend_state gD tZ 0).children 1 0 0 tZ.heuristic_score
            (some GameResultForUs.Loss),
         SearchResult.Decisive tZ.visits
           ((tZ.visits : ℚ) - tZ.total_action_value) GameResultForUs.Loss) := by
  have h := select_all_losing_amended gD tZ 0 rfl (by decide)
    (by norm_num [descend_state, tZ]) (by decide)
  exact ⟨by decide, h.2 (by decide)⟩

/-- C3: the child selection rule of one select iteration, with s the square
root of the parent's visit count: the first proven-Loss child is selected
immediately; otherwise a proven-Win child is never selected and among the
remaining children the one maximizing the exploration value
(1 - mean) + C_PUCT * prior * s / (1 + visits) wins, ties broken in favour
of the last-seen (highest-index) child. -/
theorem select_child_choice (children : List (Tree × ℕ)) (s : ℚ) (v : ℕ)
    (hne : children ≠ []) (hs : 0 ≤ s) (hsq : s * s = (v : ℚ)) :
    ((∃ p ∈ children, p.1.known_result = some GameResultForUs.Loss) →
      ∃ k p, children.get? k = some p
        ∧ p.1.known_result = some GameResultForUs.Loss
        ∧ (∀ m q, children.get? m = some q → m < k
            → q.1.known_result ≠ some GameResultForUs.Loss)
        ∧ choose_child children s = k)
    ∧ ((∀ p ∈ children, p.1.known_result ≠ some GameResultForUs.Loss) →
       (∃ p ∈ children, p.1.known_result ≠ some GameResultForUs.Win
          ∧ 0 ≤ exploration_value p.1 s) →
       ∃ k p, children.get? k = some p
         ∧ p.1.known_result ≠ some GameResultForUs.Win
         ∧ choose_child children s = k
         ∧ (∀ m q, children.get? m = some q
             → q.1.known_result ≠ some GameResultForUs.Win
             → exploration_value q.1 s ≤ exploration_value p.1 s)
         ∧ (∀ m q, children.get? m = some q
             → q.1.known_result ≠ some GameResultForUs.Win
             → k < m → exploration_value q.1 s < exploration_value p.1 s))
    ∧ (∀ c : Tree, exploration_value c s
        = (1 - c.mean_action_value)
          + C_PUCT * c.heuristic_score * s / (1 + (c.visits : ℚ)))
    ∧ (∀ (g : Game) (t : Tree) (b : ℕ), chosen_index g t b
        = choose_child (descend_state g t b).children
            (g.sqrt_fn (descend_state g t b).visits)) := by
  refine ⟨?_, ?_, fun c => rfl, fun g t b => rfl⟩
  · intro hL
    obtain ⟨k, p, hk, hpl, hfirst, hres⟩ :=
      choose_child_loop_loss children s 0 0 0 hL
    exact ⟨k, p, hk, hpl, hfirst, by rw [choose_child, hres]; omega⟩
  · intro hnoL hex
    rcases choose_child_loop_max children s 0 0 0 hnoL with
      ⟨k, p, hk, hpw, _, hres, hmax, hlast⟩ | ⟨_, hall⟩
    · exact ⟨k, p, hk, hpw, by rw [choose_child, hres]; omega,
        fun m q hq hqw => hmax m q hq hqw,
        fun m q hq hqw hkm => hlast m q hq hqw hkm⟩
    · obtain ⟨p, hp, hpw, hpv⟩ := hex
      obtain ⟨n, hn⟩ := get?_of_mem hp
      exact absurd hpv (not_le.mpr (hall n p hn hpw))

/-- C3 witness: the selection rule instantiated on a one-child list with
s = 2 the square root of 4 parent visits. -/
theorem select_child_choice_witness :
    ([(Tree.mk [] 1 (1/2) (1/2) (1/3) none, 7)] : List (Tree × ℕ)) ≠ []
    ∧ (0 : ℚ) ≤ 2 ∧ (2 : ℚ) * 2 = ((4 : ℕ) : ℚ)
    ∧ choose_child [(Tree.mk [] 1 (1/2) (1/2) (1/3) none, 7)] 2 = 0 := by
  refine ⟨by simp, by norm_num, by norm_num, ?_⟩
  have h := (select_child_choice [(Tree.mk [] 1 (1/2) (1/2) (1/3) none, 7)] 2 4
    (by simp) (by norm_num) (by norm_num)).2.1
    (by decide)
    ⟨(Tree.mk [] 1 (1/2) (1/2) (1/3) none, 7), List.mem_cons_self _ _,
      by decide, by norm_num [exploration_value, C_PUCT]⟩
  obtain ⟨k, p, hk, _, hck, _, _⟩ := h
  have hk0 : k = 0 := by
    rcases k with _ | k2
    · rfl
    · simp [List.get?] at hk
  rw [hck, hk0]

/-- C4: select on an unvisited node without a proven result expands it: on a
terminal position the known result is recorded from the side to move's
perspective with its fixed score as value (Win 1, Loss 0, Draw 1/2); on a
non-terminal position the static evaluation probability is flipped for
Black and stored; the centipawn-to-probability map is the logistic
1 / (1 + exp(-cp)). -/
theorem select_expand_spec (g : Game) (t : Tree) (b : ℕ)
    (hkr : t.known_result = none) (hv : t.visits = 0) :
    (∀ gr, g.game_result b = some gr →
      select g t b
        = (Tree.mk t.children 1 ((result_for_us gr (g.side_to_move b)).score)
            ((result_for_us gr (g.side_to_move b)).score) t.heuristic_score
            (some (result_for_us gr (g.side_to_move b))),
          SearchResult.Value ((result_for_us gr (g.side_to_move b)).score)))
    ∧ (g.game_result b = none →
      select g t b
        = (Tree.mk t.children 1
            (if g.side_to_move b = Color.Black then 1 - g.static_eval b
              else g.static_eval b)
            (if g.side_to_move b = Color.Black then 1 - g.static_eval b
              else g.static_eval b)
            t.heuristic_score none,
          SearchResult.Value (if g.side_to_move b = Color.Black
            then 1 - g.static_eval b else g.static_eval b)))
    ∧ GameResultForUs.score GameResultForUs.Win = 1
    ∧ GameResultForUs.score GameResultForUs.Loss = 0
    ∧ GameResultForUs.score GameResultForUs.Draw = 1/2
    ∧ (∀ cp : ℝ, cp_to_win_percentage cp = 1 / (1 + Real.exp (-cp))) := by
  refine ⟨?_, ?_, rfl, rfl, rfl, fun cp => rfl⟩
  · intro gr hgr
    rw [select_unvisited g t b hkr hv]
    unfold expand
    rw [hgr]
  · intro hnone
    rw [select_unvisited g t b hkr hv]
    unfold expand
    rw [hnone, hkr]

/-- C4 witness: expansion instantiated on the terminal g5 position, which is
a loss for the side to move. -/
theorem select_expand_witness :
    (Tree.mk [] 0 0 (1/2) (1/3) none).known_result = none
    ∧ (Tree.mk [] 0 0 (1/2) (1/3) none).visits = 0
    ∧ select g5 (Tree.mk [] 0 0 (1/2) (1/3) none) 1
      = (Tree.mk [] 1 0 0 (1/3) (some GameResultForUs.Loss),
         SearchResult.Value 0) := by
  refine ⟨rfl, rfl, ?_⟩
  have h := (select_expand_spec g5 (Tree.mk [] 0 0 (1/2) (1/3) none) 1 rfl rfl).1
    GameResult.WhiteWin (by norm_num [g5])
  rw [h]
  norm_num [g5, result_for_us, GameResultForUs.score]

/-- C5 (amended): a select call that returns a Value result increases the
node's visit count by exactly 1; a call that returns a Decisive(nodes, _, _)
event either marks the node as newly proven and resets its visits to 1, or
leaves it unproven with visits changed to visits + 1 - nodes. -/
theorem select_visits_amended (g : Game) (t : Tree) (b : ℕ)
    (hne : t.known_result = none → t.visits ≠ 0
      → (descend_state g t b).children ≠ []) :
    (∀ s, (select g t b).2 = SearchResult.Value s
        → (select g t b).1.visits = t.visits + 1)
    ∧ (∀ nodes av res, (select g t b).2 = SearchResult.Decisive nodes av res →
        ((select g t b).1.known_result ≠ none ∧ t.known_result = none
            ∧ (select g t b).1.visits = 1)
        ∨ ((select g t b).1.known_result = none
            ∧ (select g t b).1.visits = t.visits + 1 - nodes)) := by
  by_cases hk : t.known_result.isSome
  · rw [select_known g t b hk]
    constructor
    · intro s _
      simp
    · intro nodes av res h
      simp at h
  · have hk' : t.known_result = none := Option.not_isSome_iff_eq_none.mp hk
    by_cases hv : t.visits = 0
    · rw [select_unvisited g t b hk' hv]
      unfold expand
      rcases hgr : g.game_result b with _ | gr
      · constructor
        · intro s _
          simp [hv]
        · intro nodes av res h
          simp at h
      · constructor
        · intro s _
          simp [hv]
        · intro nodes av res h
          simp at h
    · rcases hm : (descend_state g t b).children.get? (chosen_index g t b)
        with _ | ⟨child, mv⟩
      · exfalso
        have hlt := choose_child_lt_length (descend_state g t b).children
          (g.sqrt_fn (descend_state g t b).visits) (hne hk' hv)
        have hge := List.get?_eq_none.mp hm
        have : chosen_index g t b
            = choose_child (descend_state g t b).children
                (g.sqrt_fn (descend_state g t b).visits) := rfl
        omega
      · by_cases hcw : child.known_result = some GameResultForUs.Win
        · rw [select_all_losing g t b child mv hk' hv hm hcw]
          constructor
          · intro s hs
            simp at hs
          · intro nodes av res h
            left
            exact ⟨by simp, hk', by simp⟩
        · rw [select_descend g t b child mv hk' hv hm hcw]
          rcases select g child (g.do_move b mv) with ⟨child', res0⟩
          by_cases hcl : child'.known_result = some GameResultForUs.Loss
          · constructor
            · intro s hs
              simp [backup, hcl] at hs
            · intro nodes av res h
              left
              refine ⟨?_, hk', ?_⟩
              · simp [backup, hcl]
              · simp [backup, hcl]
          · rcases hres : res0.not with val | ⟨nodes0, av0, r0⟩
            · constructor
              · intro s hs
                simp [backup, hcl, hres, descend_state_visits]
              · intro nodes av res h
                simp [backup, hcl, hres] at h
            · constructor
              · intro s hs
                simp [backup, hcl, hres] at hs
              · intro nodes av res h
                right
                have hn0 : nodes0 = nodes := by
                  simp [backup, hcl, hres] at h
                  exact h.1
                refine ⟨?_, ?_⟩
                · simp [backup, hcl, hres, descend_state_known, hk']
                · simp [backup, hcl, hres, descend_state_visits, hn0]

/-- C5 counterexample: on the two-position demonstration game the second
select call on the root leaves root.visits at 1 instead of increasing it to
2, because a decisive result is discovered and the root is re-scored. -/
theorem select_visits_claim_false :
    (select g5 new_root 0).1.visits = 1
    ∧ (select g5 (select g5 new_root 0).1 0).1.visits = 1
    ∧ ¬ ((select g5 (select g5 new_root 0).1 0).1.visits
        = (select g5 new_root 0).1.visits + 1) := by
  have h1 : (select g5 new_root 0).1 = t5a := by rw [sel5a]
  rw [h1, sel5b]
  norm_num [t5a]

/-- C5 witness: the amended visit-count equation instantiated at the second
select call of the two-position demonstration game. -/
theorem select_visits_witness :
    (t5a.known_result = none → t5a.visits ≠ 0
      → (descend_state g5 t5a 0).children ≠ [])
    ∧ ((select g5 t5a 0).2
        = SearchResult.Decisive 1 (1/2) GameResultForUs.Win →
      ((select g5 t5a 0).1.known_result ≠ none ∧ t5a.known_result = none
          ∧ (select g5 t5a 0).1.visits = 1)
      ∨ ((select g5 t5a 0).1.known_result = none
          ∧ (select g5 t5a 0).1.visits = t5a.visits + 1 - 1)) := by
  have hne : t5a.known_result = none → t5a.visits ≠ 0
      → (descend_state g5 t5a 0).children ≠ [] := by
    intro _ _
    norm_num [descend_state, t5a, init_children, g5, new_node]
  exact ⟨hne, (select_visits_amended g5 t5a 0 hne).2 1 (1/2) GameResultForUs.Win⟩

/-- C6: known_result is write-once: a select call never changes an
already-proven known_result anywhere in the tree (nodes addressed by their
child-index path). -/
theorem known_result_write_once (g : Game) (t : Tree) (b : ℕ) (path : List ℕ)
    (r : GameResultForUs) (u : Tree) (hget : get_node t path = some u)
    (hknown : u.known_result = some r) :
    ∃ u', get_node (select g t b).1 path = some u'
      ∧ u'.known_result = some r :=
  select_preserves_known_aux g (heightT t) t (le_refl _) b path r u hget hknown

/-- C6 witness: the child of tZ is proven Win before the call and still
proven Win afterwards. -/
theorem known_result_write_once_witness :
    get_node tZ [0] = some tT
    ∧ tT.known_result = some GameResultForUs.Win
    ∧ ∃ u', get_node (select gD tZ 0).1 [0] = some u'
        ∧ u'.known_result = some GameResultForUs.Win :=
  ⟨rfl, rfl, known_result_write_once gD tZ 0 [0] GameResultForUs.Win tT rfl rfl⟩

theorem sigmoid_pos (x : ℝ) : 0 < sigmoid x := by
  unfold sigmoid
  have h := Real.exp_pos (-x)
  positivity

theorem sum_map_scale (l : List ℝ) (c : ℝ) :
    (l.map (fun x => x * c)).sum = l.sum * c := by
  induction l with
  | nil => simp
  | cons hd tl ih => simp [ih]; ring

theorem sum_map_affine (l : List ℝ) (c d : ℝ) :
    (l.map (fun x => x * c + d)).sum = l.sum * c + l.length * d := by
  induction l with
  | nil => simp
  | cons hd tl ih => simp [ih]; ring

theorem decline_pass_length (l : List PolicyFeatures) :
    (decline_pass l).length = l.length := by
  unfold decline_pass
  split
  · simp
  · rfl

theorem features_for_moves_length (ply : ℕ) (extract : MoveS → PolicyFeatures)
    (fcd_for_move : MoveS → ℤ) (moves : List MoveS) :
    (features_for_moves ply extract fcd_for_move moves).length = moves.length := by
  unfold features_for_moves
  rw [decline_pass_length, List.length_map]

theorem policy_scores_length (ply : ℕ) (extract : MoveS → PolicyFeatures)
    (fcd_for_move : MoveS → ℤ) (params : List ℝ) (moves : List MoveS) :
    (policy_scores ply extract fcd_for_move params moves).length = moves.length := by
  unfold policy_scores
  rw [List.length_map, features_for_moves_length]

/-- C7: the per-move sigmoid scores are renormalized to sum to
1 - POLICY_BASELINE, each prior then receives an additive
POLICY_BASELINE/n, the returned priors sum to 1 within 1e-4, and every
prior is at least POLICY_BASELINE/n. -/
theorem policy_priors_normalized (ply : ℕ) (extract : MoveS → PolicyFeatures)
    (fcd_for_move : MoveS → ℤ) (params : List ℝ) (moves : List MoveS)
    (hne : moves ≠ []) :
    ((policy_scores ply extract fcd_for_move params moves).map
        (fun score => score * ((1 - POLICY_BASELINE)
          / (policy_scores ply extract fcd_for_move params moves).sum))).sum
      = 1 - POLICY_BASELINE
    ∧ |(generate_moves_with_probabilities ply extract fcd_for_move params moves).sum
        - 1| ≤ 1/10000
    ∧ ∀ p ∈ generate_moves_with_probabilities ply extract fcd_for_move params moves,
        POLICY_BASELINE / (moves.length : ℝ) ≤ p := by
  have hpos : ∀ x ∈ policy_scores ply extract fcd_for_move params moves, 0 < x := by
    intro x hx
    unfold policy_scores at hx
    obtain ⟨f, _, rfl⟩ := List.mem_map.mp hx
    exact sigmoid_pos _
  have hlen := policy_scores_length ply extract fcd_for_move params moves
  have hnempty : policy_scores ply extract fcd_for_move params moves ≠ [] := by
    intro hcon
    rw [hcon] at hlen
    exact hne (List.length_eq_zero.mp (by simpa using hlen.symm))
  have hsum : 0 < (policy_scores ply extract fcd_for_move params moves).sum :=
    List.sum_pos _ hpos hnempty
  have hb : (0 : ℝ) < 1 - POLICY_BASELINE := by norm_num [POLICY_BASELINE]
  have hn : (moves.length : ℝ) ≠ 0 :=
    Nat.cast_ne_zero.mpr (fun h => hne (List.length_eq_zero.mp h))
  have hscaled : ((policy_scores ply extract fcd_for_move params moves).map
      (fun score => score * ((1 - POLICY_BASELINE)
        / (policy_scores ply extract fcd_for_move params moves).sum))).sum
      = 1 - POLICY_BASELINE := by
    rw [sum_map_scale]
    field_simp
  refine ⟨hscaled, ?_, ?_⟩
  · have hsum1 : (generate_moves_with_probabilities ply extract fcd_for_move params
        moves).sum = 1 := by
      unfold generate_moves_with_probabilities
      rw [sum_map_affine, hlen]
      field_simp
    rw [hsum1]
    norm_num
  · intro p hp
    unfold generate_moves_with_probabilities at hp
    obtain ⟨s0, hs0, rfl⟩ := List.mem_map.mp hp
    have hs0pos := hpos s0 hs0
    have hfac : 0 ≤ s0 * ((1 - POLICY_BASELINE)
        / (policy_scores ply extract fcd_for_move params moves).sum) :=
      mul_nonneg hs0pos.le (div_nonneg hb.le hsum.le)
    linarith

/-- C7 witness: the normalization conclusions on a one-move slate. -/
theorem policy_priors_normalized_witness :
    ([(⟨false, 0⟩ : MoveS)] ≠ [])
    ∧ |(generate_moves_with_probabilities 5 (fun _ => zero_features) (fun _ => 0) []
        [⟨false, 0⟩]).sum - 1| ≤ 1/10000
    ∧ ∀ p ∈ generate_moves_with_probabilities 5 (fun _ => zero_features) (fun _ => 0)
        [] [⟨false, 0⟩],
        POLICY_BASELINE / (([(⟨false, 0⟩ : MoveS)]).length : ℝ) ≤ p := by
  have h := policy_priors_normalized 5 (fun _ => zero_features) (fun _ => 0) []
    [⟨false, 0⟩] (by simp)
  exact ⟨by simp, h.2.1, h.2.2⟩

theorem fcd_bonus_decline (a b c : ℤ) (mv : MoveS) (f : PolicyFeatures) :
    (fcd_bonus a b c mv f).decline_win = f.decline_win := by
  unfold fcd_bonus
  split
  · split
    · rfl
    · split
      · rfl
      · rfl
  · rfl

/-- The decline_win pass in isolation: lengths are preserved; when some
feature set has an immediate win every one without gets decline_win set to
1; when none has, decline_win stays zero everywhere. -/
theorem decline_pass_spec (l : List PolicyFeatures)
    (hdecl : ∀ f ∈ l, f.decline_win = [0]) :
    (decline_pass l).length = l.length
    ∧ ((∃ f ∈ decline_pass l, has_immediate_win f) →
        ∀ f ∈ decline_pass l, ¬has_immediate_win f → f.decline_win = [1])
    ∧ ((∀ f ∈ decline_pass l, ¬has_immediate_win f) →
        ∀ f ∈ decline_pass l, f.decline_win = [0]) := by
  unfold decline_pass
  by_cases hany : l.any (fun f => decide (has_immediate_win f)) = true
  · rw [if_pos hany]
    obtain ⟨f1, hf1, hf1i⟩ := List.any_eq_true.mp hany
    refine ⟨by simp, ?_, ?_⟩
    · intro _ f hf hni
      obtain ⟨f0, hf0, rfl⟩ := List.mem_map.mp hf
      by_cases h0 : has_immediate_win f0
      · rw [if_pos h0] at hni
        exact absurd h0 hni
      · rw [if_neg h0]
        simp [hdecl f0 hf0]
    · intro hnone
      exfalso
      have hmem : (if has_immediate_win f1 then f1
          else { f1 with decline_win := f1.decline_win.set 0 1 })
            ∈ l.map (fun f => if has_immediate_win f then f
              else { f with decline_win := f.decline_win.set 0 1 }) :=
        List.mem_map_of_mem _ hf1
      have h1 : has_immediate_win f1 := of_decide_eq_true hf1i
      rw [if_pos h1] at hmem
      exact hnone f1 hmem h1
  · rw [if_neg hany]
    refine ⟨rfl, ?_, ?_⟩
    · intro hex
      exfalso
      obtain ⟨f, hf, hfi⟩ := hex
      exact hany (List.any_eq_true.mpr ⟨f, hf, decide_eq_true hfi⟩)
    · intro _ f hf
      exact hdecl f hf

/-- C8: in features_for_moves, when at least one move of the slate has an
immediate-win feature set, every move without one gets decline_win[0] set to
1, and no decline_win is set when no immediate win exists in the slate. -/
theorem decline_win_flagging (ply : ℕ) (extract : MoveS → PolicyFeatures)
    (fcd_for_move : MoveS → ℤ) (moves : List MoveS)
    (hdecl : ∀ mv ∈ moves, (extract mv).decline_win = [0]) :
    (features_for_moves ply extract fcd_for_move moves).length = moves.length
    ∧ ((∃ f ∈ features_for_moves ply extract fcd_for_move moves,
          has_immediate_win f) →
        ∀ f ∈ features_for_moves ply extract fcd_for_move moves,
          ¬has_immediate_win f → f.decline_win = [1])
    ∧ ((∀ f ∈ features_for_moves ply extract fcd_for_move moves,
          ¬has_immediate_win f) →
        ∀ f ∈ features_for_moves ply extract fcd_for_move moves,
          f.decline_win = [0]) := by
  have hstep : ∀ f ∈ moves.map (fun mv =>
      fcd_bonus ((moves.map fcd_for_move).foldl max (-1))
        (((moves.filter (fun m2 => decide (m2.origin = mv.origin))).map
          fcd_for_move).foldl max (-1))
        (fcd_for_move mv) mv (features_for_move ply extract mv)),
      f.decline_win = [0] := by
    intro f hf
    obtain ⟨mv, hmv, rfl⟩ := List.mem_map.mp hf
    rw [fcd_bonus_decline]
    unfold features_for_move
    split
    · rfl
    · exact hdecl mv hmv
  have h := decline_pass_spec _ hstep
  have hrw : features_for_moves ply extract fcd_for_move moves
      = decline_pass (moves.map (fun mv =>
        fcd_bonus ((moves.map fcd_for_move).foldl max (-1))
          (((moves.filter (fun m2 => decide (m2.origin = mv.origin))).map
            fcd_for_move).foldl max (-1))
          (fcd_for_move mv) mv (features_for_move ply extract mv))) := rfl
  rw [hrw]
  refine ⟨?_, h.2.1, h.2.2⟩
  rw [h.1, List.length_map]

/-- C8 witness: the flagging conclusions on a one-move slate with zeroed
extraction. -/
theorem decline_win_flagging_witness :
    (∀ mv ∈ [(⟨false, 0⟩ : MoveS)],
      ((fun (_ : MoveS) => zero_features) mv).decline_win = [0])
    ∧ (features_for_moves 5 (fun _ => zero_features) (fun _ => 0)
        [⟨false, 0⟩]).length = 1 := by
  have h := decline_win_flagging 5 (fun _ => zero_features) (fun _ => 0)
    [⟨false, 0⟩] (fun mv _ => rfl)
  exact ⟨fun mv _ => rfl, by simpa using h.1⟩

/-- C9: the game-phase blending factors: the opening factor is
clamp((24 - ply)/12, 0, 1), the endgame factor clamp((ply - 24)/24, 0, 1),
the middlegame factor 1 minus both; consequently the middlegame factor is
at most 1 and at least one of the opening and endgame factors is 0. -/
theorem game_phase_factors (ply : ℕ) :
    opening_scale_factor ply = clamp ((24 - (ply : ℚ)) / 12) 0 1
    ∧ endgame_scale_factor ply = clamp (((ply : ℚ) - 24) / 24) 0 1
    ∧ middlegame_scale_factor ply
        = 1 - opening_scale_factor ply - endgame_scale_factor ply
    ∧ middlegame_scale_factor ply ≤ 1
    ∧ (opening_scale_factor ply = 0 ∨ endgame_scale_factor ply = 0) := by
  have ho : 0 ≤ opening_scale_factor ply :=
    le_min (le_max_right _ _) zero_le_one
  have he : 0 ≤ endgame_scale_factor ply :=
    le_min (le_max_right _ _) zero_le_one
  refine ⟨rfl, rfl, rfl, ?_, ?_⟩
  · unfold middlegame_scale_factor
    linarith
  · rcases le_or_lt (ply : ℚ) 24 with h | h
    · right
      unfold endgame_scale_factor
      have hd : ((ply : ℚ) - 24) / 24 ≤ 0 := by
        rw [div_nonpos_iff]
        right
        constructor
        · linarith
        · norm_num
      rw [max_eq_right hd]
      exact min_eq_left zero_le_one
    · left
      unfold opening_scale_factor
      have hd : (24 - (ply : ℚ)) / 12 ≤ 0 := by
        rw [div_nonpos_iff]
        right
        constructor
        · linarith
        · norm_num
      rw [max_eq_right hd]
      exact min_eq_left zero_le_one

theorem map_congr_mem {α β : Type} (f g : α → β) :
    ∀ (l : List α), (∀ a ∈ l, f a = g a) → l.map f = l.map g := by
  intro l h
  induction l with
  | nil => rfl
  | cons hd tl ih =>
    simp only [List.map_cons]
    rw [h hd (List.mem_cons_self _ _), ih (fun a ha => h a (List.mem_cons_of_mem _ ha))]

theorem map_const_replicate {α β : Type} (c : β) :
    ∀ (l : List α), l.map (fun _ => c) = List.replicate l.length c := by
  intro l
  induction l with
  | nil => rfl
  | cons hd tl ih => simp [ih, List.replicate]

theorem dot_product_zeros :
    ∀ (xs ys : List ℝ), (∀ x ∈ xs, x = 0) → dot_product xs ys = 0 := by
  intro xs
  induction xs with
  | nil => intro ys _; simp [dot_product]
  | cons hd tl ih =>
    intro ys h
    cases ys with
    | nil => simp [dot_product]
    | cons yh yt =>
      have hh : hd = 0 := h hd (List.mem_cons_self _ _)
      have ht := ih yt (fun x hx => h x (List.mem_cons_of_mem _ hx))
      unfold dot_product at ht ⊢
      simp [hh, ht]

theorem to_vector_zero_all :
    ∀ x ∈ cast_list (to_vector zero_features), x = 0 := by
  intro x hx
  simp [cast_list, to_vector, zero_features] at hx
  exact hx

theorem sigmoid_inverse_sigmoid {p : ℝ} (h0 : 0 < p) (h1 : p < 1) :
    sigmoid (inverse_sigmoid p) = p := by
  unfold sigmoid inverse_sigmoid
  have h2 : 0 < 1 - p := by linarith
  have h3 : 0 < p / (1 - p) := div_pos h0 h2
  rw [Real.exp_neg, Real.exp_log h3]
  rw [inv_div]
  field_simp

/-- C10: during the swap opening (ply < 2, placement moves only) every
feature vector is all-zero, every pre-normalization score equals
sigmoid(inverse_sigmoid(1/max(n,2))) = 1/max(n,2), and after renormalization
every prior equals (1 - POLICY_BASELINE)/n + POLICY_BASELINE/n. -/
theorem swap_opening_uniform_priors (ply : ℕ) (extract : MoveS → PolicyFeatures)
    (fcd_for_move : MoveS → ℤ) (params : List ℝ) (moves : List MoveS)
    (hply : ply < 2) (hopen : opening_slate moves) (hne : moves ≠ []) :
    features_for_moves ply extract fcd_for_move moves
        = List.replicate moves.length zero_features
    ∧ policy_scores ply extract fcd_for_move params moves
        = List.replicate moves.length
            (sigmoid (inverse_sigmoid (1 / ((max moves.length 2 : ℕ) : ℝ))))
    ∧ sigmoid (inverse_sigmoid (1 / ((max moves.length 2 : ℕ) : ℝ)))
        = 1 / ((max moves.length 2 : ℕ) : ℝ)
    ∧ generate_moves_with_probabilities ply extract fcd_for_move params moves
        = List.replicate moves.length
            ((1 - POLICY_BASELINE) / (moves.length : ℝ)
              + POLICY_BASELINE / (moves.length : ℝ)) := by
  have hm2 : (2 : ℝ) ≤ ((max moves.length 2 : ℕ) : ℝ) := by
    have h := le_max_right moves.length 2
    exact_mod_cast h
  have hp0 : (0 : ℝ) < 1 / ((max moves.length 2 : ℕ) : ℝ) :=
    div_pos one_pos (by linarith)
  have hp1 : 1 / ((max moves.length 2 : ℕ) : ℝ) < 1 := by
    rw [div_lt_one (by linarith)]
    linarith
  have hn : (moves.length : ℝ) ≠ 0 :=
    Nat.cast_ne_zero.mpr (fun h => hne (List.length_eq_zero.mp h))
  have hid : sigmoid (inverse_sigmoid (1 / ((max moves.length 2 : ℕ) : ℝ)))
      = 1 / ((max moves.length 2 : ℕ) : ℝ) := sigmoid_inverse_sigmoid hp0 hp1
  have hfeat : features_for_moves ply extract fcd_for_move moves
      = List.replicate moves.length zero_features := by
    unfold features_for_moves
    have hmap : moves.map (fun mv =>
        fcd_bonus ((moves.map fcd_for_move).foldl max (-1))
          (((moves.filter (fun m2 => decide (m2.origin = mv.origin))).map
            fcd_for_move).foldl max (-1))
          (fcd_for_move mv) mv (features_for_move ply extract mv))
        = moves.map (fun _ => zero_features) := by
      apply map_congr_mem
      intro mv hmv
      unfold features_for_move
      rw [if_pos hply]
      simp [fcd_bonus, hopen mv hmv]
    rw [hmap, map_const_replicate]
    unfold decline_pass
    rw [if_neg ?hno]
    case hno =>
      intro hcon
      obtain ⟨f, hf, hfi⟩ := List.any_eq_true.mp hcon
      have hfz : f = zero_features := List.eq_of_mem_replicate hf
      rw [hfz] at hfi
      exact absurd (of_decide_eq_true hfi) (by decide)
  have hscores : policy_scores ply extract fcd_for_move params moves
      = List.replicate moves.length
          (sigmoid (inverse_sigmoid (1 / ((max moves.length 2 : ℕ) : ℝ)))) := by
    unfold policy_scores
    rw [hfeat, List.map_replicate]
    have hd : dot_product (cast_list (to_vector zero_features)) params = 0 :=
      dot_product_zeros _ _ to_vector_zero_all
    rw [hd, zero_add]
  refine ⟨hfeat, hscores, hid, ?_⟩
  unfold generate_moves_with_probabilities
  rw [hscores, List.map_replicate, hid]
  have hsumrep : (List.replicate moves.length
      (1 / ((max moves.length 2 : ℕ) : ℝ))).sum
      = (moves.length : ℝ) * (1 / ((max moves.length 2 : ℕ) : ℝ)) := by
    rw [List.sum_replicate, nsmul_eq_mul]
  rw [hsumrep]
  congr 1
  field_simp

/-- C10 witness: a two-placement opening slate gets uniform priors. -/
theorem swap_opening_uniform_priors_witness :
    (0 : ℕ) < 2 ∧ opening_slate [(⟨false, 0⟩ : MoveS), ⟨false, 1⟩]
    ∧ generate_moves_with_probabilities 0 (fun _ => zero_features) (fun _ => 0) []
        [⟨false, 0⟩, ⟨false, 1⟩]
      = List.replicate 2 ((1 - POLICY_BASELINE) / ((2 : ℕ) : ℝ)
          + POLICY_BASELINE / ((2 : ℕ) : ℝ)) := by
  have h := swap_opening_uniform_priors 0 (fun _ => zero_features) (fun _ => 0) []
    [⟨false, 0⟩, ⟨false, 1⟩] (by norm_num) (by decide) (by simp)
  refine ⟨by norm_num, by decide, ?_⟩
  simpa using h.2.2.2

end Tiltak
